import Mathlib

/-!
# Verification of the ts-algorithms sorting/search library

Shallow embedding of the TypeScript sources (sorting algorithms, hash table,
binary search / AVL trees and the dispatch facade) together with proofs and
refutations of the specified properties.

Conventions used throughout:
* JavaScript arrays are modelled as `List α`; indices are `Nat` (or `Int`
  where the source can produce negative indices).
* JavaScript numbers are modelled as `Int` (or `ℚ` where division matters);
  all inputs considered are integral, so floating point rounding plays no
  role in any statement below.
* comparator functions are `α → α → Int`, mirroring `CompareFunction<T>`.
* `metrics.executionTime` / `memoryUsage` are wall-clock measurements and are
  not modelled; `SortMetrics` keeps the `comparisons` and `swaps` counters.
* loops whose termination measure is not structural are given an explicit
  fuel argument that is always instantiated large enough for the loop's
  actual bound (noted at each definition); this keeps every definition
  executable by kernel reduction.
-/

namespace TsAlg

open List

/-- Metrics record from `types.ts` (`SortMetrics`), without the wall-clock
fields. -/
structure SortMetrics where
  comparisons : Nat
  swaps : Nat
deriving Repr, DecidableEq

/-- `SortResult<T>` from `types.ts`. -/
structure SortResult (α : Type) where
  result : List α
  metrics : SortMetrics
deriving Repr, DecidableEq

/-- `SortOptions<T>` from `types.ts`: the comparator and the descending flag.
(`inPlace` only controls buffer aliasing, which has no observable effect on
the returned contents; it is omitted.) -/
structure SortOptions (α : Type) where
  compare : α → α → Int
  descending : Bool := false

/-- `createCompareFunction` from `utils.ts`: negates the comparator when
`descending` is set. -/
def createCompareFunction (opts : SortOptions α) : α → α → Int :=
  if opts.descending then fun a b => -(opts.compare a b) else opts.compare

/-- The default comparator `(a, b) => a - b` from `utils.ts`. -/
def defaultCompare : Int → Int → Int := fun a b => a - b

/-- Non-decreasing under a comparator: the ordering contract used by the
spec ("monotonically non-decreasing under the effective comparator"). -/
def sortedByCmp (cmp : α → α → Int) : List α → Prop :=
  List.Chain' (fun a b => cmp a b ≤ 0)

def decSortedByCmp (cmp : α → α → Int) : ∀ l : List α, Decidable (sortedByCmp cmp l)
  | [] => isTrue (List.chain'_nil)
  | [a] => isTrue (List.chain'_singleton a)
  | a :: b :: t =>
      match decSortedByCmp cmp (b :: t), inferInstanceAs (Decidable (cmp a b ≤ 0)) with
      | isTrue h2, isTrue h1 => isTrue (List.chain'_cons.mpr ⟨h1, h2⟩)
      | _, isFalse h1 => isFalse (fun h => h1 (List.chain'_cons.mp h).1)
      | isFalse h2, _ => isFalse (fun h => h2 (List.chain'_cons.mp h).2)

instance (cmp : α → α → Int) (l : List α) : Decidable (sortedByCmp cmp l) :=
  decSortedByCmp cmp l

/-! ## TimSort `minRunLength` (claim C8)

`TimSort.minRunLength` from `timSort.ts`:
```
let r = 0;
while (n >= this.MIN_MERGE) { r |= n & 1; n >>= 1; }
return n + r;
```
The loop halves `n` each iteration, so `n` itself bounds the number of
iterations; `minRunAux` carries that bound as structural fuel. -/

def MIN_MERGE : Nat := 32

def minRunAux : Nat → Nat → Nat → Nat
  | 0, n, r => n + r
  | fuel + 1, n, r =>
      if MIN_MERGE ≤ n then minRunAux fuel (n / 2) (r ||| n % 2) else n + r

def minRunLength (n : Nat) : Nat := minRunAux n n 0

theorem minRunAux_bounds (fuel : Nat) : ∀ n r, n ≤ fuel → MIN_MERGE ≤ n → r ≤ 1 →
    16 ≤ minRunAux fuel n r ∧ minRunAux fuel n r ≤ 32 := by
  induction fuel with
  | zero => intro n r hle h32 _; simp [MIN_MERGE] at h32; omega
  | succ fuel ih =>
      intro n r hle h32 hr
      have hr2 : r ||| n % 2 ≤ 1 := by
        have h2 : n % 2 ≤ 1 := by omega
        interval_cases r <;> interval_cases h : (n % 2) <;> decide
      have hred : minRunAux (fuel + 1) n r
          = if MIN_MERGE ≤ n then minRunAux fuel (n / 2) (r ||| n % 2) else n + r := rfl
      rw [hred, if_pos h32]
      by_cases h64 : MIN_MERGE ≤ n / 2
      · exact ih (n / 2) _ (by omega) h64 hr2
      · rcases fuel with _ | f
        · exfalso; simp [MIN_MERGE] at h32; omega
        · have hred2 : minRunAux (f + 1) (n / 2) (r ||| n % 2)
              = if MIN_MERGE ≤ n / 2 then minRunAux f (n / 2 / 2) ((r ||| n % 2) ||| n / 2 % 2)
                else n / 2 + (r ||| n % 2) := rfl
          rw [hred2, if_neg h64]
          simp [MIN_MERGE] at h32 h64
          omega

/-- C8, amended: for `n ≥ 32` the computed minimum run length lies in
`[16, 32]` (the loop stops with `n ∈ [16, 31]` and `r ∈ {0, 1}`). -/
theorem C8_minRun_in_16_32 (n : Nat) (h : MIN_MERGE ≤ n) :
    16 ≤ minRunLength n ∧ minRunLength n ≤ 32 :=
  minRunAux_bounds n n 0 (Nat.le_refl n) h (by omega)

/-- C8 witness: the amended bound at the concrete input `n = 100`. -/
theorem C8_minRun_witness :
    MIN_MERGE ≤ 100 ∧ (16 ≤ minRunLength 100 ∧ minRunLength 100 ≤ 32) :=
  ⟨by decide, C8_minRun_in_16_32 100 (by decide)⟩

/-- C8 counterexample: at `n = 32` (which satisfies `n ≥ 32`) the computed
minimum run length is `16`, which does not lie in the claimed interval
`[32, 64]`. -/
theorem C8_counterexample :
    MIN_MERGE ≤ 32 ∧ minRunLength 32 = 16 ∧ ¬ (32 ≤ minRunLength 32 ∧ minRunLength 32 ≤ 64) := by
  decide

/-! ## RadixSort (claim C1)

Embedding of `RadixSort.sort` (LSD variant) from `radixSort.ts` for integer
inputs.  All numbers appearing after the `-min` offset are non-negative, so
they are represented as `Nat`.  `Math.floor(Math.log(num) / Math.log(base))`
is modelled by `Nat.log base num`, which is the exact value of that
expression for the integer inputs appearing in the statements below. -/

/-- `RadixSort.getDigit`: digit of `num` at `position` in the given base. -/
def getDigit (num : Nat) (position : Nat) (base : Nat) : Nat :=
  num / base ^ position % base

/-- `⌊log_base n⌋` for `n ≥ 1`, computed by repeated division; the first
argument is structural fuel, for which `n` itself always suffices. -/
def logFloor (base : Nat) : Nat → Nat → Nat
  | 0, _ => 0
  | fuel + 1, n => if n < base ∨ base ≤ 1 then 0 else logFloor base fuel (n / base) + 1

/-- `RadixSort.getDigitCount`. -/
def getDigitCount (num : Nat) (base : Nat) : Nat :=
  if num = 0 then 1 else logFloor base num num + 1

/-- The placement loop of `RadixSort.countingSortByDigit`: walks the input
from the last element to the first (`rev` is the reversed input), writing
each element at `count[digit] - 1` in the output and decrementing that
count. -/
def csPlace (digit base : Nat) :
    List Nat → List Nat → List (Option Nat) → List (Option Nat) × List Nat
  | [], count, out => (out, count)
  | x :: rest, count, out =>
      let d := getDigit x digit base
      let c := (count.getD d 0)
      csPlace digit base rest (count.set d (c - 1)) (out.set (c - 1) (some x))

/-- `RadixSort.countingSortByDigit`: stable counting sort of `arr` by the
given digit; also returns the number of `metrics.swaps` increments
performed (`n` placements plus `n` copy-backs). -/
def countingSortByDigit (arr : List Nat) (digit base : Nat) : List Nat × Nat :=
  let n := arr.length
  let count := (List.range base).map (fun d => arr.countP (fun x => getDigit x digit base == d))
  let cum := (count.scanl (fun acc x => acc + x) 0).drop 1
  let placed := (csPlace digit base arr.reverse cum (List.replicate n none)).1
  (placed.map (fun o => o.getD 0), 2 * n)

/-- `RadixSort.lsdRadixSort` on a non-empty integer array: shift by `-min`
when negatives are present, counting-sort once per digit of the maximum,
then undo the shift.  Returns the array and the total `swaps` count. -/
def lsdRadixSort (arr : List Int) (base : Nat) : List Int × Nat :=
  match arr with
  | [] => ([], 0)
  | a :: rest =>
      let mn := rest.foldl min a
      let offset : Int := if mn < 0 then -mn else 0
      let adjusted : List Nat := arr.map (fun x => (x + offset).toNat)
      let mx := adjusted.foldl max 0
      let maxDigits := getDigitCount mx base
      let (sorted, swaps) := (List.range maxDigits).foldl
        (fun acc digit =>
          let (l, s) := countingSortByDigit acc.1 digit base
          (l, acc.2 + s))
        (adjusted, 0)
      (sorted.map (fun x => (x : Int) - offset), swaps)

/-- `RadixSort.sort` from `radixSort.ts`.  The `options` argument is
accepted but — exactly as in the source — neither `options.compare` nor
`options.descending` is ever consulted; only `options.base` would be, which
defaults to 10. -/
def RadixSortSort (arr : List Int) (opts : SortOptions Int) (base : Nat := 10) :
    SortResult Int :=
  if arr.length ≤ 1 then
    { result := arr, metrics := { comparisons := 0, swaps := 0 } }
  else
    let (res, swaps) := lsdRadixSort arr base
    { result := res, metrics := { comparisons := 0, swaps := swaps } }

/-- C1: the claim fails on the code.  `RadixSort.sort([1, 2],
{ descending: true })` returns `[1, 2]` unchanged — RadixSort never reads
the `descending` flag or the comparator — so the result is *not*
monotonically non-increasing under the effective (negated) comparator as
the claim requires for `descending: true`. -/
theorem C1_radix_descending_failure :
    (RadixSortSort [1, 2] { compare := defaultCompare, descending := true }).result = [1, 2]
    ∧ ¬ sortedByCmp
        (createCompareFunction { compare := defaultCompare, descending := true })
        (RadixSortSort [1, 2] { compare := defaultCompare, descending := true }).result := by
  decide

/-! ## MergeSort (claim C6)

Embedding of `MergeSort.sort` (top-down variant) from `mergeSort.ts`.  The
source operates in place on the index range `[left, right]`; every
operation reads and writes only inside that range, so each range is
modelled as the list of its elements.  Metrics are threaded as
`(comparisons, swaps)` pairs. -/

/-- The inner while-loop of `insertionSort`: `revPre` is the prefix
`arr[left..i-1]` in reverse order; elements comparing greater than `key`
are shifted right (each shift counts one swap) until an element with
`compare(arr[j], key) <= 0` is found (each test counts one comparison).
Returns the new reversed prefix including `key` plus the metric deltas. -/
def insertKey (cmp : α → α → Int) (key : α) : List α → List α × Nat × Nat
  | [] => ([key], 0, 0)
  | b :: rest =>
      if cmp b key ≤ 0 then (key :: b :: rest, 1, 0)
      else
        let (r, c, s) := insertKey cmp key rest
        (b :: r, c + 1, s + 1)

/-- The outer for-loop of `insertionSort`, processing the remaining keys
`ks` against the reversed already-sorted prefix `rev`. -/
def insertionSortGo (cmp : α → α → Int) : List α → List α → Nat → Nat → List α × Nat × Nat
  | [], rev, c, s => (rev.reverse, c, s)
  | k :: ks, rev, c, s =>
      let (rev2, dc, ds) := insertKey cmp k rev
      insertionSortGo cmp ks rev2 (c + dc) (s + ds)

/-- `insertionSort` from `mergeSort.ts` (also used by the other sorters),
acting on one range. -/
def insertionSortList (cmp : α → α → Int) : List α → List α × Nat × Nat
  | [] => ([], 0, 0)
  | x :: rest => insertionSortGo cmp rest [x] 0 0

/-- `MergeSort.merge`: the two sorted halves have been copied out as
`leftArray`/`rightArray`; each write back into `arr` counts one swap, each
comparator call one comparison. -/
def mergeLists (cmp : α → α → Int) : List α → List α → List α × Nat × Nat
  | [], r => (r, 0, r.length)
  | l, [] => (l, 0, l.length)
  | a :: l, b :: r =>
      if cmp a b ≤ 0 then
        let (m, c, s) := mergeLists cmp l (b :: r)
        (a :: m, c + 1, s + 1)
      else
        let (m, c, s) := mergeLists cmp (a :: l) r
        (b :: m, c + 1, s + 1)
termination_by l r => l.length + r.length

/-- `MergeSort.mergeSort` on one range: insertion sort at or below the
threshold 7, otherwise split at `mid = ⌊(left + right) / 2⌋` (position
`(n - 1) / 2` inside the range), recurse, then either skip the merge when
`compare(arr[mid], arr[mid+1]) <= 0` (one extra comparison) or merge.
The first argument is structural fuel; the range length always suffices
(each recursive call is on a strictly shorter range). -/
def mergeSortSeg (cmp : α → α → Int) : Nat → List α → List α × Nat × Nat
  | 0, l => (l, 0, 0)
  | fuel + 1, l =>
      if l.length ≤ 7 then insertionSortList cmp l
      else
        let mid := (l.length - 1) / 2
        let (ls, c1, s1) := mergeSortSeg cmp fuel (l.take (mid + 1))
        let (rs, c2, s2) := mergeSortSeg cmp fuel (l.drop (mid + 1))
        match ls.getLast?, rs.head? with
        | some x, some y =>
            if cmp x y ≤ 0 then (ls ++ rs, c1 + c2 + 1, s1 + s2)
            else
              let (m, c, s) := mergeLists cmp ls rs
              (m, c1 + c2 + 1 + c, s1 + s2 + s)
        | _, _ => (ls ++ rs, c1 + c2, s1 + s2)

/-- `MergeSort.sort` from `mergeSort.ts`. -/
def MergeSortSort (arr : List α) (opts : SortOptions α) : SortResult α :=
  if arr.length ≤ 1 then { result := arr, metrics := { comparisons := 0, swaps := 0 } }
  else
    let cmp := createCompareFunction opts
    let (res, c, s) := mergeSortSeg cmp arr.length arr
    { result := res, metrics := { comparisons := c, swaps := s } }

/-! ### Correctness of the MergeSort embedding

Throughout, `cmp` is assumed to satisfy the comparator contract of
`types.ts`: it is antisymmetric in sign (`cmp a b = -(cmp b a)`) and its
non-positive sections are transitive. -/

section MergeSortProofs

variable {α : Type} (cmp : α → α → Int)

/-- Non-positivity section of the comparator. -/
def cmpLe (a b : α) : Prop := cmp a b ≤ 0

theorem cmpLe_total (hneg : ∀ a b, cmp a b = -(cmp b a)) (a b : α)
    (h : ¬ cmpLe cmp a b) : cmpLe cmp b a := by
  unfold cmpLe at *
  rw [hneg b a]; omega

theorem cmpLe_refl (hneg : ∀ a b, cmp a b = -(cmp b a)) (a : α) : cmpLe cmp a a := by
  unfold cmpLe
  have := hneg a a; omega

theorem insertKey_perm (key : α) (rev : List α) :
    (insertKey cmp key rev).1 ~ key :: rev := by
  induction rev with
  | nil => simp [insertKey]
  | cons b rest ih =>
      by_cases h : cmp b key ≤ 0
      · simp [insertKey, h]
      · simp only [insertKey, if_neg h]
        calc b :: (insertKey cmp key rest).1
            ~ b :: key :: rest := (ih.cons b)
          _ ~ key :: b :: rest := List.Perm.swap _ _ _

theorem insertKey_pairwise (hneg : ∀ a b, cmp a b = -(cmp b a))
    (htrans : ∀ a b c, cmpLe cmp a b → cmpLe cmp b c → cmpLe cmp a c)
    (key : α) (rev : List α) (hp : rev.Pairwise (fun a b => cmpLe cmp b a)) :
    (insertKey cmp key rev).1.Pairwise (fun a b => cmpLe cmp b a) := by
  induction rev with
  | nil => simp [insertKey, List.pairwise_singleton]
  | cons b rest ih =>
      rcases List.pairwise_cons.mp hp with ⟨hball, hrest⟩
      by_cases h : cmp b key ≤ 0
      · simp only [insertKey, if_pos h]
        refine List.pairwise_cons.mpr ⟨?_, hp⟩
        intro x hx
        rcases List.mem_cons.mp hx with rfl | hx
        · exact h
        · exact htrans x b key (hball x hx) h
      · simp only [insertKey, if_neg h]
        refine List.pairwise_cons.mpr ⟨?_, ih hrest⟩
        intro x hx
        have hx2 := (insertKey_perm cmp key rest).mem_iff.mp hx
        rcases List.mem_cons.mp hx2 with rfl | hx2
        · exact cmpLe_total cmp hneg b x h
        · exact hball x hx2

theorem insertionSortGo_perm (ks : List α) : ∀ (rev : List α) (c s : Nat),
    (insertionSortGo cmp ks rev c s).1 ~ rev.reverse ++ ks := by
  induction ks with
  | nil => intro rev c s; simp [insertionSortGo]
  | cons k ks ih =>
      intro rev c s
      rcases hik : insertKey cmp k rev with ⟨rev2, dc, ds⟩
      have hik1 : (insertKey cmp k rev).1 = rev2 := by rw [hik]
      simp only [insertionSortGo, hik]
      calc (insertionSortGo cmp ks rev2 (c + dc) (s + ds)).1
          ~ rev2.reverse ++ ks := ih rev2 _ _
        _ ~ rev2 ++ ks := (rev2.reverse_perm).append_right ks
        _ ~ (k :: rev) ++ ks := by
              have := insertKey_perm cmp k rev
              rw [hik1] at this
              exact this.append_right ks
        _ ~ k :: (rev.reverse ++ ks) := by
              refine List.Perm.cons k ?_
              exact (rev.reverse_perm.symm).append_right ks
        _ ~ rev.reverse ++ k :: ks := List.perm_middle.symm

theorem insertionSortGo_pairwise (hneg : ∀ a b, cmp a b = -(cmp b a))
    (htrans : ∀ a b c, cmpLe cmp a b → cmpLe cmp b c → cmpLe cmp a c)
    (ks : List α) : ∀ (rev : List α) (c s : Nat),
    rev.Pairwise (fun a b => cmpLe cmp b a) →
    (insertionSortGo cmp ks rev c s).1.Pairwise (cmpLe cmp) := by
  induction ks with
  | nil =>
      intro rev c s hp
      simpa [insertionSortGo, List.pairwise_reverse] using hp
  | cons k ks ih =>
      intro rev c s hp
      rcases hik : insertKey cmp k rev with ⟨rev2, dc, ds⟩
      have hik1 : (insertKey cmp k rev).1 = rev2 := by rw [hik]
      simp only [insertionSortGo, hik]
      refine ih rev2 _ _ ?_
      have := insertKey_pairwise cmp hneg htrans k rev hp
      rwa [hik1] at this

theorem insertionSortList_perm (l : List α) : (insertionSortList cmp l).1 ~ l := by
  cases l with
  | nil => simp [insertionSortList]
  | cons x rest =>
      simpa [insertionSortList] using insertionSortGo_perm cmp rest [x] 0 0

theorem insertionSortList_pairwise (hneg : ∀ a b, cmp a b = -(cmp b a))
    (htrans : ∀ a b c, cmpLe cmp a b → cmpLe cmp b c → cmpLe cmp a c)
    (l : List α) : (insertionSortList cmp l).1.Pairwise (cmpLe cmp) := by
  cases l with
  | nil => simp [insertionSortList]
  | cons x rest =>
      exact insertionSortGo_pairwise cmp hneg htrans rest [x] 0 0 (List.pairwise_singleton _ _)

theorem mergeLists_perm (n : Nat) : ∀ (l r : List α), l.length + r.length ≤ n →
    (mergeLists cmp l r).1 ~ l ++ r := by
  induction n with
  | zero =>
      intro l r hn
      have : l = [] := by cases l <;> simp_all
      subst this
      simp [mergeLists]
  | succ n ih =>
      intro l r hn
      match l, r with
      | [], r => simp [mergeLists]
      | a :: l, [] => simp [mergeLists]
      | a :: l, b :: r =>
          simp only [mergeLists]
          by_cases h : cmp a b ≤ 0
          · rw [if_pos h]
            rcases hm : mergeLists cmp l (b :: r) with ⟨m, c, s⟩
            have hm1 : (mergeLists cmp l (b :: r)).1 = m := by rw [hm]
            have := ih l (b :: r) (by simp at hn ⊢; omega)
            rw [hm1] at this
            simpa using this.cons a
          · rw [if_neg h]
            rcases hm : mergeLists cmp (a :: l) r with ⟨m, c, s⟩
            have hm1 : (mergeLists cmp (a :: l) r).1 = m := by rw [hm]
            have := ih (a :: l) r (by simp at hn ⊢; omega)
            rw [hm1] at this
            calc b :: m ~ b :: (a :: l ++ r) := this.cons b
              _ ~ (a :: l) ++ (b :: r) := List.perm_middle.symm

theorem mergeLists_pairwise (hneg : ∀ a b, cmp a b = -(cmp b a))
    (htrans : ∀ a b c, cmpLe cmp a b → cmpLe cmp b c → cmpLe cmp a c)
    (n : Nat) : ∀ (l r : List α), l.length + r.length ≤ n →
    l.Pairwise (cmpLe cmp) → r.Pairwise (cmpLe cmp) →
    (mergeLists cmp l r).1.Pairwise (cmpLe cmp) := by
  induction n with
  | zero =>
      intro l r hn _ hr
      have : l = [] := by cases l <;> simp_all
      subst this
      simpa [mergeLists] using hr
  | succ n ih =>
      intro l r hn hl hr
      match l, r with
      | [], r => simpa [mergeLists] using hr
      | a :: l, [] => simpa [mergeLists] using hl
      | a :: l, b :: r =>
          rcases List.pairwise_cons.mp hl with ⟨hla, hltail⟩
          rcases List.pairwise_cons.mp hr with ⟨hrb, hrtail⟩
          simp only [mergeLists]
          by_cases h : cmp a b ≤ 0
          · rw [if_pos h]
            rcases hm : mergeLists cmp l (b :: r) with ⟨m, c, s⟩
            have hm1 : (mergeLists cmp l (b :: r)).1 = m := by rw [hm]
            have hmp : m ~ l ++ b :: r := by
              have := mergeLists_perm cmp n l (b :: r) (by simp at hn ⊢; omega)
              rwa [hm1] at this
            have hms : m.Pairwise (cmpLe cmp) := by
              have := ih l (b :: r) (by simp at hn ⊢; omega) hltail hr
              rwa [hm1] at this
            refine List.pairwise_cons.mpr ⟨?_, hms⟩
            intro x hx
            rcases (List.mem_append.mp (hmp.mem_iff.mp hx)) with hx | hx
            · exact hla x hx
            · rcases List.mem_cons.mp hx with rfl | hx
              · exact h
              · exact htrans a b x h (hrb x hx)
          · rw [if_neg h]
            rcases hm : mergeLists cmp (a :: l) r with ⟨m, c, s⟩
            have hm1 : (mergeLists cmp (a :: l) r).1 = m := by rw [hm]
            have hmp : m ~ (a :: l) ++ r := by
              have := mergeLists_perm cmp n (a :: l) r (by simp at hn ⊢; omega)
              rwa [hm1] at this
            have hms : m.Pairwise (cmpLe cmp) := by
              have := ih (a :: l) r (by simp at hn ⊢; omega) hl hrtail
              rwa [hm1] at this
            have hba : cmpLe cmp b a := cmpLe_total cmp hneg a b h
            refine List.pairwise_cons.mpr ⟨?_, hms⟩
            intro x hx
            rcases (List.mem_append.mp (hmp.mem_iff.mp hx)) with hx | hx
            · rcases List.mem_cons.mp hx with rfl | hx
              · exact hba
              · exact htrans b a x hba (hla x hx)
            · exact hrb x hx

theorem pairwise_le_getLast (hneg : ∀ a b, cmp a b = -(cmp b a)) :
    ∀ (l : List α) (x : α), l.Pairwise (cmpLe cmp) → l.getLast? = some x →
    ∀ a ∈ l, cmpLe cmp a x := by
  intro l
  induction l with
  | nil => intro x _ hx; simp at hx
  | cons a rest ih =>
      intro x hp hx b hb
      rcases List.pairwise_cons.mp hp with ⟨hall, hrest⟩
      cases rest with
      | nil =>
          simp at hx
          subst hx
          rcases List.mem_singleton.mp hb with rfl
          exact cmpLe_refl cmp hneg b
      | cons c t =>
          have hx2 : (c :: t).getLast? = some x := by
            simpa [List.getLast?_cons_cons] using hx
          have hxmem : x ∈ c :: t := by
            rcases List.mem_getLast?_eq_getLast (l := c :: t) (x := x) hx2 with ⟨hne, hEq⟩
            rw [hEq]
            exact List.getLast_mem hne
          rcases List.mem_cons.mp hb with rfl | hb
          · exact hall x hxmem
          · exact ih x hrest hx2 b hb

theorem pairwise_head_le (hneg : ∀ a b, cmp a b = -(cmp b a)) :
    ∀ (l : List α) (y : α), l.Pairwise (cmpLe cmp) → l.head? = some y →
    ∀ b ∈ l, cmpLe cmp y b := by
  intro l
  cases l with
  | nil => intro y _ hy; simp at hy
  | cons a rest =>
      intro y hp hy b hb
      simp at hy
      subst hy
      rcases List.mem_cons.mp hb with rfl | hb
      · exact cmpLe_refl cmp hneg b
      · exact (List.pairwise_cons.mp hp).1 b hb

theorem mergeSortSeg_perm : ∀ (fuel : Nat) (l : List α), l.length ≤ fuel →
    (mergeSortSeg cmp fuel l).1 ~ l := by
  intro fuel
  induction fuel with
  | zero => intro l _; simp [mergeSortSeg]
  | succ fuel ih =>
      intro l hlen
      by_cases h7 : l.length ≤ 7
      · simpa [mergeSortSeg, h7] using insertionSortList_perm cmp l
      · have hlen8 : 8 ≤ l.length := by omega
        simp only [mergeSortSeg, if_neg h7]
        set mid := (l.length - 1) / 2 with hmid
        have htlen : (l.take (mid + 1)).length ≤ fuel := by
          simp [List.length_take]; omega
        have hdlen : (l.drop (mid + 1)).length ≤ fuel := by
          simp [List.length_drop]; omega
        rcases hls : mergeSortSeg cmp fuel (l.take (mid + 1)) with ⟨ls, c1, s1⟩
        rcases hrs : mergeSortSeg cmp fuel (l.drop (mid + 1)) with ⟨rs, c2, s2⟩
        have hlsp : ls ~ l.take (mid + 1) := by
          have := ih (l.take (mid + 1)) htlen; rwa [hls] at this
        have hrsp : rs ~ l.drop (mid + 1) := by
          have := ih (l.drop (mid + 1)) hdlen; rwa [hrs] at this
        have happ : ls ++ rs ~ l := by
          calc ls ++ rs ~ l.take (mid + 1) ++ l.drop (mid + 1) := hlsp.append hrsp
            _ = l := List.take_append_drop _ l
        cases hgl : ls.getLast? with
        | none => simpa using happ
        | some x =>
            cases hhd : rs.head? with
            | none => simpa using happ
            | some y =>
                by_cases hxy : cmp x y ≤ 0
                · simpa [hxy] using happ
                · simp only [if_neg hxy]
                  rcases hm : mergeLists cmp ls rs with ⟨m, c, s⟩
                  have hm1 : (mergeLists cmp ls rs).1 = m := by rw [hm]
                  have := mergeLists_perm cmp (ls.length + rs.length) ls rs (Nat.le_refl _)
                  rw [hm1] at this
                  simpa using this.trans happ

theorem mergeSortSeg_pairwise (hneg : ∀ a b, cmp a b = -(cmp b a))
    (htrans : ∀ a b c, cmpLe cmp a b → cmpLe cmp b c → cmpLe cmp a c) :
    ∀ (fuel : Nat) (l : List α), l.length ≤ fuel →
    (mergeSortSeg cmp fuel l).1.Pairwise (cmpLe cmp) := by
  intro fuel
  induction fuel with
  | zero =>
      intro l hlen
      have : l = [] := by cases l <;> simp_all
      subst this
      simp [mergeSortSeg]
  | succ fuel ih =>
      intro l hlen
      by_cases h7 : l.length ≤ 7
      · simpa [mergeSortSeg, h7] using insertionSortList_pairwise cmp hneg htrans l
      · have hlen8 : 8 ≤ l.length := by omega
        simp only [mergeSortSeg, if_neg h7]
        set mid := (l.length - 1) / 2 with hmid
        have htlen : (l.take (mid + 1)).length ≤ fuel := by
          simp [List.length_take]; omega
        have hdlen : (l.drop (mid + 1)).length ≤ fuel := by
          simp [List.length_drop]; omega
        rcases hls : mergeSortSeg cmp fuel (l.take (mid + 1)) with ⟨ls, c1, s1⟩
        rcases hrs : mergeSortSeg cmp fuel (l.drop (mid + 1)) with ⟨rs, c2, s2⟩
        have hlss : ls.Pairwise (cmpLe cmp) := by
          have := ih (l.take (mid + 1)) htlen; rwa [hls] at this
        have hrss : rs.Pairwise (cmpLe cmp) := by
          have := ih (l.drop (mid + 1)) hdlen; rwa [hrs] at this
        cases hgl : ls.getLast? with
        | none =>
            have : ls = [] := by cases ls <;> simp_all
            subst this
            simpa using hrss
        | some x =>
            cases hhd : rs.head? with
            | none =>
                have : rs = [] := by cases rs <;> simp_all
                subst this
                simpa using hlss
            | some y =>
                by_cases hxy : cmp x y ≤ 0
                · simp only [if_pos hxy]
                  refine List.pairwise_append.mpr ⟨hlss, hrss, ?_⟩
                  intro a ha b hb
                  have hax := pairwise_le_getLast cmp hneg ls x hlss hgl a ha
                  have hyb := pairwise_head_le cmp hneg rs y hrss hhd b hb
                  exact htrans a x b hax (htrans x y b hxy hyb)
                · simp only [if_neg hxy]
                  rcases hm : mergeLists cmp ls rs with ⟨m, c, s⟩
                  have hm1 : (mergeLists cmp ls rs).1 = m := by rw [hm]
                  have := mergeLists_pairwise cmp hneg htrans (ls.length + rs.length)
                    ls rs (Nat.le_refl _) hlss hrss
                  rw [hm1] at this
                  simpa using this

end MergeSortProofs

/-- C6, amended: `descending` is implemented by negating the comparator
(`createCompareFunction`), and — provided the comparator never declares two
*distinct* elements equal (`cmp a b = 0 → a = b`) — MergeSort with
`descending: true` returns exactly the reverse of the `descending: false`
result, for every input array. -/
theorem C6_mergeSort_descending_reverse (cmp : α → α → Int)
    (hneg : ∀ a b, cmp a b = -(cmp b a))
    (htrans : ∀ a b c, cmp a b ≤ 0 → cmp b c ≤ 0 → cmp a c ≤ 0)
    (hinj : ∀ a b, cmp a b = 0 → a = b) (l : List α) :
    (∀ a b, createCompareFunction { compare := cmp, descending := true } a b = -(cmp a b))
    ∧ (MergeSortSort l { compare := cmp, descending := true }).result
        = (MergeSortSort l { compare := cmp, descending := false }).result.reverse := by
  refine ⟨fun a b => rfl, ?_⟩
  by_cases hl : l.length ≤ 1
  · simp only [MergeSortSort, if_pos hl]
    rcases l with _ | ⟨a, _ | ⟨b, t⟩⟩
    · rfl
    · rfl
    · simp at hl
  · have hcmp' : createCompareFunction { compare := cmp, descending := true }
        = fun a b => -(cmp a b) := rfl
    have hcmpf : createCompareFunction { compare := cmp, descending := false } = cmp := rfl
    set cmp' : α → α → Int := fun a b => -(cmp a b) with hcmpNegDef
    have hneg' : ∀ a b, cmp' a b = -(cmp' b a) := by
      intro a b
      simp only [hcmpNegDef]
      have := hneg a b; omega
    have htrans' : ∀ a b c, cmp' a b ≤ 0 → cmp' b c ≤ 0 → cmp' a c ≤ 0 := by
      intro a b c h1 h2
      simp only [hcmpNegDef] at h1 h2 ⊢
      have hba : cmp b a ≤ 0 := by have := hneg a b; omega
      have hcb : cmp c b ≤ 0 := by have := hneg b c; omega
      have := htrans c b a hcb hba
      have := hneg c a; omega
    simp only [MergeSortSort, if_neg hl, hcmp', hcmpf]
    rcases hdesc : mergeSortSeg cmp' l.length l with ⟨dres, dc, ds⟩
    rcases hasc : mergeSortSeg cmp l.length l with ⟨ares, ac, as2⟩
    have hdesc1 : (mergeSortSeg cmp' l.length l).1 = dres := by rw [hdesc]
    have hasc1 : (mergeSortSeg cmp l.length l).1 = ares := by rw [hasc]
    have hdp : dres ~ l := by
      have := mergeSortSeg_perm cmp' l.length l (Nat.le_refl _); rwa [hdesc1] at this
    have hap : ares ~ l := by
      have := mergeSortSeg_perm cmp l.length l (Nat.le_refl _); rwa [hasc1] at this
    have hds : dres.Pairwise (cmpLe cmp') := by
      have := mergeSortSeg_pairwise cmp' hneg' htrans' l.length l (Nat.le_refl _)
      rwa [hdesc1] at this
    have has : ares.Pairwise (cmpLe cmp) := by
      have := mergeSortSeg_pairwise cmp hneg htrans l.length l (Nat.le_refl _)
      rwa [hasc1] at this
    -- `dres` is non-increasing under `cmp`, so its reverse is non-decreasing.
    have hdrev : dres.reverse.Pairwise (cmpLe cmp) := by
      rw [List.pairwise_reverse]
      refine hds.imp ?_
      intro a b h
      unfold cmpLe at h ⊢
      simp only [hcmpNegDef] at h
      have := hneg a b; omega
    have hanti : ∀ a b, cmpLe cmp a b → cmpLe cmp b a → a = b := by
      intro a b h1 h2
      unfold cmpLe at h1 h2
      refine hinj a b ?_
      have := hneg a b; omega
    have heq : dres.reverse = ares := by
      have hperm : dres.reverse ~ ares := (dres.reverse_perm.trans hdp).trans hap.symm
      exact @List.eq_of_perm_of_sorted _ (cmpLe cmp) ⟨hanti⟩ _ _ hperm hdrev has
    show dres = ares.reverse
    rw [← heq, List.reverse_reverse]

/-- Key comparator on pairs used for the C6 counterexample: compares the
first component only, so distinct pairs can compare equal. -/
def pairFstCmp : Int × Int → Int × Int → Int := fun p q => p.1 - q.1

/-- C6 counterexample: with a comparator that has ties (compare by first
component), MergeSort on `[(0,0), (0,1)]` returns `[(0,0), (0,1)]` for both
`descending: false` and `descending: true` (stable insertion sort with a
negated-but-still-zero comparator), so the descending result is *not* the
exact reverse of the ascending result. -/
theorem C6_counterexample :
    (MergeSortSort [((0 : Int), (0 : Int)), (0, 1)] { compare := pairFstCmp, descending := true }).result
    ≠ ((MergeSortSort [((0 : Int), (0 : Int)), (0, 1)]
        { compare := pairFstCmp, descending := false }).result).reverse := by
  decide

/-- C6 witness: the amended theorem applied to the default integer
comparator `(a, b) => a - b` and the concrete array `[3, 1, 2]`. -/
theorem C6_witness :
    (∀ a b : Int, defaultCompare a b = -(defaultCompare b a))
    ∧ (∀ a b c : Int, defaultCompare a b ≤ 0 → defaultCompare b c ≤ 0 → defaultCompare a c ≤ 0)
    ∧ (∀ a b : Int, defaultCompare a b = 0 → a = b)
    ∧ ((∀ a b : Int,
          createCompareFunction { compare := defaultCompare, descending := true } a b
            = -(defaultCompare a b))
        ∧ (MergeSortSort [3, 1, 2] { compare := defaultCompare, descending := true }).result
            = (MergeSortSort [3, 1, 2]
                { compare := defaultCompare, descending := false }).result.reverse) := by
  have h1 : ∀ a b : Int, defaultCompare a b = -(defaultCompare b a) := by
    intro a b; show a - b = -(b - a); omega
  have h2 : ∀ a b c : Int, defaultCompare a b ≤ 0 → defaultCompare b c ≤ 0 →
      defaultCompare a c ≤ 0 := by
    intro a b c hab hbc
    show a - c ≤ 0
    have : a - b ≤ 0 := hab
    have : b - c ≤ 0 := hbc
    omega
  have h3 : ∀ a b : Int, defaultCompare a b = 0 → a = b := by
    intro a b h
    have : a - b = 0 := h
    omega
  exact ⟨h1, h2, h3, C6_mergeSort_descending_reverse defaultCompare h1 h2 h3 [3, 1, 2]⟩

/-! ## QuickSort (claim C7)

Embedding of `QuickSort.sort` from `quickSort.ts` together with the shared
helpers `medianOfThree` and `partition` from `utils.ts`.  The state record
carries the array, the two `SortMetrics` counters and two *ghost* counters
that are not part of the source: `calls` counts every comparator
invocation (incremented at each site where the source calls
`compare(...)`), and `m3` counts the invocations of `medianOfThree`.
These ghost counters formalise "number of comparator invocations
performed" from the claim. -/

/-- QuickSort execution state: array, `metrics.comparisons`,
`metrics.swaps`, plus the ghost counters. -/
structure QSt (α : Type) where
  arr : List α
  comps : Nat
  swaps : Nat
  calls : Nat
  m3 : Nat
deriving Repr, DecidableEq

/-- `swap` from `utils.ts` (`[arr[i], arr[j]] = [arr[j], arr[i]]`); no
metric is touched by `swap` itself. -/
def qsSwap [Inhabited α] (s : QSt α) (i j : Nat) : QSt α :=
  { s with arr := (s.arr.set i (s.arr.getD j default)).set j (s.arr.getD i default) }

/-- `medianOfThree` from `utils.ts`: sorts `arr[left]`, `arr[mid]`,
`arr[right]` with three comparisons and up to three swaps, moves the
median to `right - 1` and returns that index.  It performs exactly three
comparator calls and *no* metric updates (it does not receive the metrics
object); the three `calls` and one `m3` ghost increments are recorded up
front. -/
def medianOfThree [Inhabited α] (cmp : α → α → Int) (s : QSt α) (left right : Nat) :
    Nat × QSt α :=
  let mid := (left + right) / 2
  let s := { s with calls := s.calls + 3, m3 := s.m3 + 1 }
  let s := if cmp (s.arr.getD left default) (s.arr.getD mid default) > 0 then
    qsSwap s left mid else s
  let s := if cmp (s.arr.getD left default) (s.arr.getD right default) > 0 then
    qsSwap s left right else s
  let s := if cmp (s.arr.getD mid default) (s.arr.getD right default) > 0 then
    qsSwap s mid right else s
  (right - 1, qsSwap s mid (right - 1))

/-- The `for (j = left; j < right; j++)` loop of `partition` from
`utils.ts`; `iPlus` stands for `i + 1` (JS `i` starts at `left - 1`).
The fuel is `right - j`, the exact remaining iteration count. -/
def partitionGo [Inhabited α] (cmp : α → α → Int) (pivot : α) :
    Nat → Nat → Nat → QSt α → Nat × QSt α
  | 0, _, iPlus, s => (iPlus, s)
  | fuel + 1, j, iPlus, s =>
      let s := { s with comps := s.comps + 1, calls := s.calls + 1 }
      if cmp (s.arr.getD j default) pivot ≤ 0 then
        if iPlus ≠ j then
          let s := qsSwap s iPlus j
          let s := { s with swaps := s.swaps + 1 }
          partitionGo cmp pivot fuel (j + 1) (iPlus + 1) s
        else
          partitionGo cmp pivot fuel (j + 1) (iPlus + 1) s
      else
        partitionGo cmp pivot fuel (j + 1) iPlus s

/-- `partition` from `utils.ts` (Lomuto partition around `arr[right]`).
Returns `i + 1` and the new state; the final `swap(arr, i + 1, right)`
always counts one swap. -/
def partitionF [Inhabited α] (cmp : α → α → Int) (s : QSt α) (left right : Nat) :
    Nat × QSt α :=
  let pivot := s.arr.getD right default
  let (iPlus, s) := partitionGo cmp pivot (right - left) left left s
  let s := qsSwap s iPlus right
  ((iPlus : Nat), { s with swaps := s.swaps + 1 })

/-- The inner while-loop of `QuickSort.insertionSort`: `jPlus` stands for
`j + 1` (JS `j` can reach `left - 1`).  Each test counts one comparison;
each shift `arr[j + 1] = arr[j]` counts one swap.  Fuel `jPlus` bounds the
loop exactly. -/
def insRangeInner [Inhabited α] (cmp : α → α → Int) (left : Nat) (key : α) :
    Nat → Nat → QSt α → Nat × QSt α
  | 0, jPlus, s => (jPlus, s)
  | fuel + 1, jPlus, s =>
      if left < jPlus then
        let s := { s with comps := s.comps + 1, calls := s.calls + 1 }
        if cmp (s.arr.getD (jPlus - 1) default) key ≤ 0 then (jPlus, s)
        else
          let s := { s with arr := s.arr.set jPlus (s.arr.getD (jPlus - 1) default),
                            swaps := s.swaps + 1 }
          insRangeInner cmp left key fuel (jPlus - 1) s
      else (jPlus, s)

/-- The outer for-loop of `QuickSort.insertionSort` over `i = left+1..right`;
the final `arr[j + 1] = key` write is not metered by the source. -/
def insRangeGo [Inhabited α] (cmp : α → α → Int) (left right : Nat) :
    Nat → Nat → QSt α → QSt α
  | 0, _, s => s
  | fuel + 1, i, s =>
      if i ≤ right then
        let key := s.arr.getD i default
        let (jPlus, s) := insRangeInner cmp left key i i s
        let s := { s with arr := s.arr.set jPlus key }
        insRangeGo cmp left right fuel (i + 1) s
      else s

/-- `QuickSort.insertionSort` on the range `[left, right]`. -/
def insertionSortRange [Inhabited α] (cmp : α → α → Int) (s : QSt α)
    (left right : Nat) : QSt α :=
  insRangeGo cmp left right (right + 1 - left) (left + 1) s

/-- `QuickSort.quickSort`: insertion sort for ranges of at most 10
elements, otherwise median-of-three pivot selection, explicit pivot move
to the end (one counted swap), Lomuto partition and guarded recursion on
both sides.  Fuel `right - left + 1` (the range size) always suffices:
both recursive ranges are strictly shorter. -/
def quickSortRange [Inhabited α] (cmp : α → α → Int) :
    Nat → Nat → Nat → QSt α → QSt α
  | 0, _, _, s => s
  | fuel + 1, left, right, s =>
      if right + 1 - left ≤ 10 then insertionSortRange cmp s left right
      else
        let (pivotIndex, s) := medianOfThree cmp s left right
        let s := qsSwap s pivotIndex right
        let s := { s with swaps := s.swaps + 1 }
        let (p, s) := partitionF cmp s left right
        let s := if left < p - 1 then quickSortRange cmp fuel left (p - 1) s else s
        if p + 1 < right then quickSortRange cmp fuel (p + 1) right s else s

/-- `QuickSort.sort` from `quickSort.ts`: validation and the trivial
return for `length <= 1`, otherwise the recursive sort on `[0, n-1]`.
Returns the full final state (the `SortResult` consists of `arr` and the
two metric fields). -/
def QuickSortRun [Inhabited α] (arr : List α) (opts : SortOptions α) : QSt α :=
  if arr.length ≤ 1 then { arr := arr, comps := 0, swaps := 0, calls := 0, m3 := 0 }
  else
    quickSortRange (createCompareFunction opts) arr.length 0 (arr.length - 1)
      { arr := arr, comps := 0, swaps := 0, calls := 0, m3 := 0 }

/-- `QuickSort.sort`'s visible result. -/
def QuickSortSort [Inhabited α] (arr : List α) (opts : SortOptions α) : SortResult α :=
  let s := QuickSortRun arr opts
  { result := s.arr, metrics := { comparisons := s.comps, swaps := s.swaps } }

/-! ### The metric/call-count relation for QuickSort -/

section QuickSortProofs

variable {α : Type} [Inhabited α] (cmp : α → α → Int)

/-- The quantity `calls - comparisons - 3·m3`, preserved by every
operation in the QuickSort embedding. -/
def qExc (s : QSt α) : Int := (s.calls : Int) - s.comps - 3 * s.m3

theorem qExc_qsSwap (s : QSt α) (i j : Nat) : qExc (qsSwap s i j) = qExc s := rfl

theorem qExc_medianOfThree (s : QSt α) (left right : Nat) :
    qExc (medianOfThree cmp s left right).2 = qExc s + 3 - 3 := by
  unfold medianOfThree
  dsimp only
  split <;> split <;> split <;> simp [qExc, qsSwap] <;> push_cast <;> ring

theorem qExc_partitionGo (pivot : α) :
    ∀ (fuel j iPlus : Nat) (s : QSt α),
    qExc (partitionGo cmp pivot fuel j iPlus s).2 = qExc s := by
  intro fuel
  induction fuel with
  | zero => intro j iPlus s; rfl
  | succ fuel ih =>
      intro j iPlus s
      simp only [partitionGo]
      split
      · split
        · rw [ih]
          simp [qExc, qsSwap]; try (push_cast; ring)
        · rw [ih]
          simp [qExc]; try (push_cast; ring)
      · rw [ih]
        simp [qExc]; try (push_cast; ring)

theorem qExc_partitionF (s : QSt α) (left right : Nat) :
    qExc (partitionF cmp s left right).2 = qExc s := by
  unfold partitionF
  dsimp only
  rcases hp : partitionGo cmp (s.arr.getD right default) (right - left) left left s
    with ⟨iPlus, s2⟩
  have := qExc_partitionGo cmp (s.arr.getD right default) (right - left) left left s
  rw [hp] at this
  simp only at this ⊢
  simp [qExc, qsSwap] at this ⊢
  omega

theorem qExc_insRangeInner (left : Nat) (key : α) :
    ∀ (fuel jPlus : Nat) (s : QSt α),
    qExc (insRangeInner cmp left key fuel jPlus s).2 = qExc s := by
  intro fuel
  induction fuel with
  | zero => intro jPlus s; rfl
  | succ fuel ih =>
      intro jPlus s
      simp only [insRangeInner]
      split
      · split
        · simp [qExc]; try (push_cast; ring)
        · rw [ih]
          simp [qExc]; try (push_cast; ring)
      · rfl

theorem qExc_insRangeGo (left right : Nat) :
    ∀ (fuel i : Nat) (s : QSt α),
    qExc (insRangeGo cmp left right fuel i s) = qExc s := by
  intro fuel
  induction fuel with
  | zero => intro i s; rfl
  | succ fuel ih =>
      intro i s
      simp only [insRangeGo]
      split
      · rcases hinner : insRangeInner cmp left (s.arr.getD i default) i i s with ⟨jPlus, s2⟩
        have := qExc_insRangeInner cmp left (s.arr.getD i default) i i s
        rw [hinner] at this
        simp only at this
        rw [ih]
        simpa [qExc] using this
      · rfl

theorem qExc_insertionSortRange (s : QSt α) (left right : Nat) :
    qExc (insertionSortRange cmp s left right) = qExc s :=
  qExc_insRangeGo cmp left right _ _ s

theorem qExc_quickSortRange :
    ∀ (fuel left right : Nat) (s : QSt α),
    qExc (quickSortRange cmp fuel left right s) = qExc s := by
  intro fuel
  induction fuel with
  | zero => intro left right s; rfl
  | succ fuel ih =>
      intro left right s
      simp only [quickSortRange]
      split
      · exact qExc_insertionSortRange cmp s left right
      · rcases hm3 : medianOfThree cmp s left right with ⟨pivotIndex, s1⟩
        have hm3e := qExc_medianOfThree cmp s left right
        rw [hm3] at hm3e
        simp only at hm3e
        rcases hpart : partitionF cmp
            { qsSwap s1 pivotIndex right with
                swaps := (qsSwap s1 pivotIndex right).swaps + 1 } left right with ⟨p, s2⟩
        have hparte := qExc_partitionF cmp
          { qsSwap s1 pivotIndex right with
              swaps := (qsSwap s1 pivotIndex right).swaps + 1 } left right
        rw [hpart] at hparte
        simp only at hparte
        have hmid : qExc s2 = qExc s := by
          rw [hparte]
          have : qExc { qsSwap s1 pivotIndex right with
              swaps := (qsSwap s1 pivotIndex right).swaps + 1 } = qExc s1 := by
            simp [qExc, qsSwap]
          rw [this]
          omega
        split
        · rw [ih]
          split
          · rw [ih]; exact hmid
          · exact hmid
        · split
          · rw [ih]; exact hmid
          · exact hmid

end QuickSortProofs

/-- C7, amended: `metrics.comparisons` equals the total number of
comparator invocations *minus three per `medianOfThree` call* — the three
comparisons inside `medianOfThree` (and its swaps) are not metered because
`medianOfThree` does not receive the metrics object.  Stated for every
input array and every comparator/descending option. -/
theorem C7_quickSort_comparisons_account {α : Type} [Inhabited α]
    (arr : List α) (opts : SortOptions α) :
    (QuickSortRun arr opts).calls
      = (QuickSortRun arr opts).comps + 3 * (QuickSortRun arr opts).m3 := by
  unfold QuickSortRun
  split
  · rfl
  · have := qExc_quickSortRange (createCompareFunction opts) arr.length 0 (arr.length - 1)
      { arr := arr, comps := 0, swaps := 0, calls := 0, m3 := 0 }
    simp [qExc] at this
    omega

/-- C7 counterexample: on the 11-element array below (length above the
insertion-sort threshold 10, so `medianOfThree` runs at least once),
`metrics.comparisons` differs from the actual number of comparator
invocations. -/
theorem C7_counterexample :
    (QuickSortRun ([5, 9, 1, 7, 3, 8, 2, 6, 0, 4, 10] : List Int)
        { compare := defaultCompare }).comps
    ≠ (QuickSortRun ([5, 9, 1, 7, 3, 8, 2, 6, 0, 4, 10] : List Int)
        { compare := defaultCompare }).calls := by
  decide

/-! ## HeapSort

Embedding of `HeapSort.sort` from `heapSort.ts` (recursive `maxHeapify`
variant used by `sort`).  The state is the same record as for QuickSort;
the ghost counters are simply carried along.  `maxHeapify`'s recursion
always moves to a strict child (`2i+1` or `2i+2`), so `heapSize` bounds
its depth; it is passed as fuel. -/

/-- `HeapSort.maxHeapify`. -/
def hsMaxHeapify [Inhabited α] (cmp : α → α → Int) : Nat → Nat → Nat → QSt α → QSt α
  | 0, _, _, s => s
  | fuel + 1, index, heapSize, s =>
      let lft := 2 * index + 1
      let rgt := 2 * index + 2
      let (largest, s) :=
        if lft < heapSize then
          let s := { s with comps := s.comps + 1, calls := s.calls + 1 }
          if cmp (s.arr.getD lft default) (s.arr.getD index default) > 0 then (lft, s)
          else (index, s)
        else (index, s)
      let (largest, s) :=
        if rgt < heapSize then
          let s := { s with comps := s.comps + 1, calls := s.calls + 1 }
          if cmp (s.arr.getD rgt default) (s.arr.getD largest default) > 0 then (rgt, s)
          else (largest, s)
        else (largest, s)
      if largest ≠ index then
        let s := qsSwap s index largest
        let s := { s with swaps := s.swaps + 1 }
        hsMaxHeapify cmp fuel largest heapSize s
      else s

/-- `HeapSort.buildMaxHeap`: heapify nodes `n/2 - 1` down to `0`. -/
def hsBuild [Inhabited α] (cmp : α → α → Int) (n : Nat) : Nat → QSt α → QSt α
  | 0, s => s
  | k + 1, s => hsBuild cmp n k (hsMaxHeapify cmp n k n s)

/-- The extraction loop of `HeapSort.heapSort`: for `i = n-1 .. 1`, swap
the root with slot `i` and re-heapify the shrunken heap. -/
def hsExtract [Inhabited α] (cmp : α → α → Int) : Nat → QSt α → QSt α
  | 0, s => s
  | i + 1, s =>
      let s := qsSwap s 0 (i + 1)
      let s := { s with swaps := s.swaps + 1 }
      let s := hsMaxHeapify cmp (i + 1) 0 (i + 1) s
      hsExtract cmp i s

/-- `HeapSort.sort` from `heapSort.ts`. -/
def HeapSortSort [Inhabited α] (arr : List α) (opts : SortOptions α) : SortResult α :=
  if arr.length ≤ 1 then { result := arr, metrics := { comparisons := 0, swaps := 0 } }
  else
    let cmp := createCompareFunction opts
    let s : QSt α := { arr := arr, comps := 0, swaps := 0, calls := 0, m3 := 0 }
    let s := hsBuild cmp arr.length (arr.length / 2) s
    let s := hsExtract cmp (arr.length - 1) s
    { result := s.arr, metrics := { comparisons := s.comps, swaps := s.swaps } }

/-! ## IntroSort

Embedding of `IntroSort.sort` from `introSort.ts`.  Its `maxHeapify`
computes child indices as `2 * (index - arr[0]) + 1/2` — subtracting the
*element value* stored at index 0, not an index offset (the spec flags
this as a transcription defect).  Such indices can be negative or past
the end; JavaScript then reads `undefined`, and any comparison involving
`undefined` yields `NaN`, making every `> 0` test false.  This is
modelled by `Option`-valued reads (`none` = `undefined`) and a comparator
on options (`none` operands make every sign test false).  A swap is only
reached when the preceding comparison returned a real number, i.e. when
both indices were in bounds, so in-bounds `List.set` writes are faithful. -/

/-- JavaScript array read at a possibly out-of-range `Int` index. -/
def arrGetI (l : List Int) (i : Int) : Option Int :=
  if 0 ≤ i ∧ i < l.length then some (l.getD i.toNat 0) else none

/-- `compare(x, y) > 0` where either operand may be `undefined` (then the
result is `NaN` and the test is false). -/
def cmpGtOpt (cmp : Int → Int → Int) (x y : Option Int) : Bool :=
  match x, y with
  | some a, some b => decide (cmp a b > 0)
  | _, _ => false

/-- `swap` at `Int` indices.  Both indices are within bounds whenever this
is reached (see the section comment); out-of-range indices leave the
array unchanged. -/
def qsSwapI (s : QSt Int) (i j : Int) : QSt Int :=
  if 0 ≤ i ∧ i < s.arr.length ∧ 0 ≤ j ∧ j < s.arr.length then qsSwap s i.toNat j.toNat
  else s

/-- `IntroSort.maxHeapify` with the defective child-index computation.
The fuel bounds the (not obviously terminating) recursion; the value used
by the callers below always exceeds the number of iterations actually
performed on the inputs in this file. -/
def isMaxHeapify (cmp : Int → Int → Int) : Nat → Int → Nat → QSt Int → QSt Int
  | 0, _, _, s => s
  | fuel + 1, index, heapSize, s =>
      match arrGetI s.arr 0 with
      | none => s
      | some v =>
          let lft : Int := 2 * (index - v) + 1
          let rgt : Int := 2 * (index - v) + 2
          let (largest, s) :=
            if lft < (heapSize : Int) then
              let s := { s with comps := s.comps + 1, calls := s.calls + 1 }
              if cmpGtOpt cmp (arrGetI s.arr lft) (arrGetI s.arr index) then (lft, s)
              else (index, s)
            else (index, s)
          let (largest, s) :=
            if rgt < (heapSize : Int) then
              let s := { s with comps := s.comps + 1, calls := s.calls + 1 }
              if cmpGtOpt cmp (arrGetI s.arr rgt) (arrGetI s.arr largest) then (rgt, s)
              else (largest, s)
            else (largest, s)
          if largest ≠ index then
            let s := qsSwapI s index largest
            let s := { s with swaps := s.swaps + 1 }
            isMaxHeapify cmp fuel largest heapSize s
          else s

/-- `IntroSort.buildMaxHeap`: heapify `left + i` with heap size `size - i`
for `i = size/2 - 1` down to `0` (as written in the source). -/
def isBuildGo (cmp : Int → Int → Int) (left size : Nat) : Nat → QSt Int → QSt Int
  | 0, s => s
  | k + 1, s =>
      isBuildGo cmp left size k
        (isMaxHeapify cmp (s.arr.length + size + 2) (left + k) (size - k) s)

/-- The extraction loop of `IntroSort.heapSort`: `i = right .. left + 1`. -/
def isExtractGo (cmp : Int → Int → Int) (left : Nat) : Nat → QSt Int → QSt Int
  | 0, s => s
  | d + 1, s =>
      let i := left + d + 1
      let s := qsSwap s left i
      let s := { s with swaps := s.swaps + 1 }
      let s := isMaxHeapify cmp (s.arr.length + d + 2) (left : Int) (i - left) s
      isExtractGo cmp left d s

/-- `IntroSort.heapSort` on the range `[left, right]`. -/
def isHeapSortRange (cmp : Int → Int → Int) (left right : Nat) (s : QSt Int) : QSt Int :=
  let size := right + 1 - left
  let s := isBuildGo cmp left size (size / 2) s
  isExtractGo cmp left (right - left) s

/-- `IntroSort.introSort`/`IntroSort.quickSort`: insertion sort at or
below 16 elements, heap sort once the depth limit reaches zero, otherwise
a median-of-three Lomuto quicksort step with unguarded recursion into
both sides.  The fuel (range size plus one) bounds the recursion depth. -/
def introSortRange (cmp : Int → Int → Int) : Nat → Nat → Nat → Nat → QSt Int → QSt Int
  | 0, _, _, _, s => s
  | fuel + 1, left, right, depth, s =>
      let size := right + 1 - left
      if size ≤ 16 then insertionSortRange cmp s left right
      else if depth = 0 then isHeapSortRange cmp left right s
      else
        if left < right then
          let (pivotIndex, s) := medianOfThree cmp s left right
          let s := qsSwap s pivotIndex right
          let s := { s with swaps := s.swaps + 1 }
          let (p, s) := partitionF cmp s left right
          let s := introSortRange cmp fuel left (p - 1) (depth - 1) s
          introSortRange cmp fuel (p + 1) right (depth - 1) s
        else s

/-- `IntroSort.sort` from `introSort.ts`; the depth limit is
`2 * ⌊log₂ n⌋`. -/
def IntroSortSort (arr : List Int) (opts : SortOptions Int) : SortResult Int :=
  if arr.length ≤ 1 then { result := arr, metrics := { comparisons := 0, swaps := 0 } }
  else
    let cmp := createCompareFunction opts
    let maxDepth := 2 * logFloor 2 arr.length arr.length
    let s : QSt Int := { arr := arr, comps := 0, swaps := 0, calls := 0, m3 := 0 }
    let s := introSortRange cmp (arr.length + 1) 0 (arr.length - 1) maxDepth s
    { result := s.arr, metrics := { comparisons := s.comps, swaps := s.swaps } }

/-! ## TimSort (claim C2)

Embedding of `TimSort.sort` from `timSort.ts`.  `Run` is called `TRun`
with fields `start`/`stop` (`end` is a Lean keyword).  All loops carry
structural fuel with the exact bound noted at each definition. -/

/-- `Run` from `timSort.ts` (`end` renamed to `stop`). -/
structure TRun where
  start : Nat
  stop : Nat
deriving Repr, DecidableEq, Inhabited

/-- The ascending scan of `TimSort.findRun`; fuel = `end - runEnd`. -/
def trFindAsc [Inhabited α] (cmp : α → α → Int) (endIdx : Nat) :
    Nat → Nat → QSt α → Nat × QSt α
  | 0, runEnd, s => (runEnd, s)
  | fuel + 1, runEnd, s =>
      if runEnd < endIdx then
        let s := { s with comps := s.comps + 1, calls := s.calls + 1 }
        if cmp (s.arr.getD runEnd default) (s.arr.getD (runEnd + 1) default) > 0 then
          (runEnd, s)
        else trFindAsc cmp endIdx fuel (runEnd + 1) s
      else (runEnd, s)

/-- The descending scan of `TimSort.findRun`; fuel = `end - runEnd`. -/
def trFindDesc [Inhabited α] (cmp : α → α → Int) (endIdx : Nat) :
    Nat → Nat → QSt α → Nat × QSt α
  | 0, runEnd, s => (runEnd, s)
  | fuel + 1, runEnd, s =>
      if runEnd < endIdx then
        let s := { s with comps := s.comps + 1, calls := s.calls + 1 }
        if cmp (s.arr.getD runEnd default) (s.arr.getD (runEnd + 1) default) ≤ 0 then
          (runEnd, s)
        else trFindDesc cmp endIdx fuel (runEnd + 1) s
      else (runEnd, s)

/-- `TimSort.reverseRun` (no metrics are touched); fuel = `end - start`. -/
def trReverseRun [Inhabited α] : Nat → Nat → Nat → QSt α → QSt α
  | 0, _, _, s => s
  | fuel + 1, a, b, s =>
      if a < b then trReverseRun fuel (a + 1) (b - 1) (qsSwap s a b)
      else s

/-- `TimSort.findRun`: scan ascending; if the scan stopped before `end`,
reverse the scanned slice in place and continue scanning descending.
(The source reverses the *ascending* run it just found — the reversal
happens before the descending scan.) -/
def trFindRun [Inhabited α] (cmp : α → α → Int) (start endIdx : Nat) (s : QSt α) :
    Nat × QSt α :=
  let (runEnd, s) := trFindAsc cmp endIdx (endIdx + 1) start s
  if runEnd < endIdx then
    let s := trReverseRun (endIdx + 1) start runEnd s
    trFindDesc cmp endIdx (endIdx + 1) runEnd s
  else (runEnd, s)

/-- The run-collection loop of `TimSort.timSort`; fuel = `n - start`
(`start` strictly increases each iteration). -/
def trBuildRuns [Inhabited α] (cmp : α → α → Int) (n minRun : Nat) :
    Nat → Nat → QSt α → List TRun × QSt α
  | 0, _, s => ([], s)
  | fuel + 1, start, s =>
      if start < n then
        let (runEnd, s) := trFindRun cmp start (n - 1) s
        if runEnd + 1 - start < minRun then
          let e := min (start + minRun - 1) (n - 1)
          let s := insertionSortRange cmp s start e
          let (rest, s) := trBuildRuns cmp n minRun fuel (e + 1) s
          (⟨start, e⟩ :: rest, s)
        else
          let (rest, s) := trBuildRuns cmp n minRun fuel (runEnd + 1) s
          (⟨start, runEnd⟩ :: rest, s)
      else ([], s)

/-- `TimSort.binarySearch`; fuel = `right - left`. -/
def trBinarySearch [Inhabited α] (cmp : α → α → Int) (arr : List α) (target : α) :
    Nat → Nat → Nat → QSt α → Nat × QSt α
  | 0, left, _, s => (left, s)
  | fuel + 1, left, right, s =>
      if left < right then
        let mid := (left + right) / 2
        let s := { s with comps := s.comps + 1, calls := s.calls + 1 }
        if cmp (arr.getD mid default) target ≤ 0 then
          trBinarySearch cmp arr target fuel (mid + 1) right s
        else trBinarySearch cmp arr target fuel left mid s
      else (left, s)

/-- The exponential phase of `TimSort.gallopSearch`; fuel = `arr.length`
plus one (`i` strictly increases each step). -/
def trGallopExp [Inhabited α] (cmp : α → α → Int) (arr : List α) (target : α) :
    Nat → Nat → Nat → QSt α → Nat × QSt α
  | 0, i, _, s => (i, s)
  | fuel + 1, i, step, s =>
      if i < arr.length then
        let s := { s with comps := s.comps + 1, calls := s.calls + 1 }
        if cmp (arr.getD i default) target > 0 then (i, s)
        else trGallopExp cmp arr target fuel (i + step) (step * 2) s
      else (i, s)

/-- `TimSort.gallopSearch`: exponential then binary search for the
insertion point of `target` in `arr` starting at `start`. -/
def trGallopSearch [Inhabited α] (cmp : α → α → Int) (arr : List α) (target : α)
    (start : Nat) (s : QSt α) : Nat × QSt α :=
  let (i, s) := trGallopExp cmp arr target (arr.length + 1) start 1 s
  let e := min i arr.length
  trBinarySearch cmp arr target (e + 1) start e s

/-- Copy `src[a .. a+len)` into `arr[k ..]`, one counted swap per element
(the bulk-copy loops of `gallopMerge` and the merge tails). -/
def trCopySeg [Inhabited α] (src : List α) : Nat → Nat → Nat → QSt α → Nat × QSt α
  | 0, _, k, s => (k, s)
  | len + 1, a, k, s =>
      let s := { s with arr := s.arr.set k (src.getD a default), swaps := s.swaps + 1 }
      trCopySeg src len (a + 1) (k + 1) s

/-- The exponential scan of `gallopSearch` when `target` is `undefined`:
for a numeric comparator every comparison yields `NaN`, so the loop never
breaks and walks `i` past the end, counting one comparison per probe (the
subsequent binary search also never moves its lower bound).  This branch
is not reached on any input evaluated in this file (for a non-numeric
comparator the source would throw here instead). -/
def trGallopExpNaN (len : Nat) : Nat → Nat → Nat → Nat
  | 0, _, c => c
  | fuel + 1, i, c =>
      if i < len then trGallopExpNaN len fuel (i + 2 ^ (c + 1) / 2) (c + 1) else c

/-- `TimSort.gallopMerge`.  When the first search exhausts the left run,
`left[gallopLeft]` is `undefined` in the source; the second search then
degenerates (see `trGallopExpNaN`) and returns its `start = rightIndex`,
copying nothing. -/
def trGallopMerge [Inhabited α] (cmp : α → α → Int) (left right : List α)
    (i j k : Nat) (s : QSt α) : Nat × Nat × Nat × QSt α :=
  let (gl, s) := trGallopSearch cmp left (right.getD j default) i s
  let (k, s) := trCopySeg left (gl - i) i k s
  if gl < left.length then
    let (gr, s) := trGallopSearch cmp right (left.getD gl default) j s
    let (k, s) := trCopySeg right (gr - j) j k s
    (gl, gr, k, s)
  else
    let probes := trGallopExpNaN right.length (right.length + 1) j 0
    let s := { s with comps := s.comps + probes, calls := s.calls + probes }
    (gl, j, k, s)

/-- The main loop of `TimSort.mergeRunsOptimized`: one
`metrics.comparisons` increment per iteration (even on the galloping
branch, where the comparator is not called), then either a gallop step or
a single guarded pick.  Fuel: each iteration either advances `i + j`
(normal pick) or the gallop step advances `i + j` after which at most one
more iteration can stall, so `2·(|left| + |right|) + 2` suffices. -/
def trMergeLoop [Inhabited α] (cmp : α → α → Int) (left right : List α) :
    Nat → Nat → Nat → Nat → Nat → Nat → QSt α → Nat × Nat × Nat × QSt α
  | 0, i, j, k, _, _, s => (i, j, k, s)
  | fuel + 1, i, j, k, gl, gr, s =>
      if i < left.length ∧ j < right.length then
        let s := { s with comps := s.comps + 1 }
        if 7 ≤ gl ∨ 7 ≤ gr then
          let (i2, j2, k2, s) := trGallopMerge cmp left right i j k s
          trMergeLoop cmp left right fuel i2 j2 k2 0 0 s
        else
          let s := { s with calls := s.calls + 1 }
          if cmp (left.getD i default) (right.getD j default) ≤ 0 then
            let s := { s with arr := s.arr.set k (left.getD i default), swaps := s.swaps + 1 }
            trMergeLoop cmp left right fuel (i + 1) j (k + 1) (gl + 1) 0 s
          else
            let s := { s with arr := s.arr.set k (right.getD j default), swaps := s.swaps + 1 }
            trMergeLoop cmp left right fuel i (j + 1) (k + 1) 0 (gr + 1) s
      else (i, j, k, s)

/-- `TimSort.mergeRunsOptimized`: copy out the two runs, merge with
galloping, then copy the remainders. -/
def trMergeRunsOptimized [Inhabited α] (cmp : α → α → Int) (run1 run2 : TRun)
    (s : QSt α) : QSt α :=
  let left := (s.arr.drop run1.start).take (run1.stop + 1 - run1.start)
  let right := (s.arr.drop run2.start).take (run2.stop + 1 - run2.start)
  let (i, j, k, s) :=
    trMergeLoop cmp left right (2 * (left.length + right.length) + 2)
      0 0 run1.start 0 0 s
  let (k, s) := trCopySeg left (left.length - i) i k s
  let (_, s) := trCopySeg right (right.length - j) j k s
  s

/-- The stack-collapse loop of `TimSort.mergeRuns` (`while stack.length
>= 3`); each iteration shortens the stack by one, so its length is the
fuel. -/
def trCollapse [Inhabited α] (cmp : α → α → Int) : Nat → List TRun → QSt α →
    List TRun × QSt α
  | 0, st, s => (st, s)
  | fuel + 1, st, s =>
      let n := st.length
      if 3 ≤ n then
        let run1 := st.getD (n - 3) default
        let run2 := st.getD (n - 2) default
        let run3 := st.getD (n - 1) default
        if run2.stop - run2.start ≤ run3.stop - run3.start then
          let s := trMergeRunsOptimized cmp run1 run2 s
          trCollapse cmp fuel (st.take (n - 3) ++ [⟨run1.start, run2.stop⟩] ++ st.drop (n - 1)) s
        else if run1.stop - run1.start ≤ run2.stop - run2.start + (run3.stop - run3.start) then
          let s := trMergeRunsOptimized cmp run1 run2 s
          trCollapse cmp fuel (st.take (n - 3) ++ [⟨run1.start, run2.stop⟩] ++ st.drop (n - 1)) s
        else
          let s := trMergeRunsOptimized cmp run2 run3 s
          trCollapse cmp fuel (st.take (n - 2) ++ [⟨run2.start, run3.stop⟩] ++ st.drop n) s
      else (st, s)

/-- The push phase of `TimSort.mergeRuns`: push each run, then collapse. -/
def trPushRuns [Inhabited α] (cmp : α → α → Int) : List TRun → List TRun → QSt α →
    List TRun × QSt α
  | [], st, s => (st, s)
  | r :: rest, st, s =>
      let st := st ++ [r]
      let (st, s) := trCollapse cmp st.length st s
      trPushRuns cmp rest st s

/-- The final pairwise merge of `TimSort.mergeRuns` (`while stack.length
> 1`); stack length is the fuel. -/
def trFinalMerge [Inhabited α] (cmp : α → α → Int) : Nat → List TRun → QSt α → QSt α
  | 0, _, s => s
  | fuel + 1, st, s =>
      match st with
      | r1 :: r2 :: rest =>
          let s := trMergeRunsOptimized cmp r1 r2 s
          trFinalMerge cmp fuel (⟨r1.start, r2.stop⟩ :: rest) s
      | _ => s

/-- `TimSort.timSort`: insertion sort below `MIN_MERGE`, otherwise run
collection followed by the merge phases. -/
def TimSortRun [Inhabited α] (cmp : α → α → Int) (arr : List α) : QSt α :=
  let n := arr.length
  let s : QSt α := { arr := arr, comps := 0, swaps := 0, calls := 0, m3 := 0 }
  if n < MIN_MERGE then insertionSortRange cmp s 0 (n - 1)
  else
    let minRun := minRunLength n
    let (runs, s) := trBuildRuns cmp n minRun (n + 1) 0 s
    let (st, s) := trPushRuns cmp runs [] s
    trFinalMerge cmp st.length st s

/-- `TimSort.sort` from `timSort.ts`. -/
def TimSortSort [Inhabited α] (arr : List α) (opts : SortOptions α) : SortResult α :=
  if arr.length ≤ 1 then { result := arr, metrics := { comparisons := 0, swaps := 0 } }
  else
    let s := TimSortRun (createCompareFunction opts) arr
    { result := s.arr, metrics := { comparisons := s.comps, swaps := s.swaps } }

/-- Comparator on key/position pairs that compares keys only; distinct
positions tagged with equal keys are the equal elements whose relative
order stability is about. -/
def pairKeyCmp : (Int × Nat) → (Int × Nat) → Int := fun p q => p.1 - q.1

/-- The C2 failing input: 32 `(key, original-position)` pairs.  The first
16 positions start with a 2-element natural run, so they are repaired by
insertion sort into the run `0,1,2,3,4,5,6,10,11,…,18`; positions 16–31
form the natural ascending run `8,9,10,…,23`.  Merging the two runs
galls after seven consecutive left-run picks: the gallop search locates
the insertion point of the left-run boundary element `(10, 7)` in the
right run with an *upper-bound* (`<=`) binary search, so the equal
right-run element `(10, 18)` is bulk-copied before it. -/
def c2Input : List (Int × Nat) :=
  [(5, 0), (0, 1), (1, 2), (2, 3), (3, 4), (4, 5), (6, 6), (10, 7), (11, 8), (12, 9),
   (13, 10), (14, 11), (15, 12), (16, 13), (17, 14), (18, 15),
   (8, 16), (9, 17), (10, 18), (11, 19), (12, 20), (13, 21), (14, 22), (15, 23),
   (16, 24), (17, 25), (18, 26), (19, 27), (20, 28), (21, 29), (22, 30), (23, 31)]

/-- C2: TimSort is not stable.  The elements `(10, 7)` and `(10, 18)`
compare equal and appear in that order in the input (positions 7 and 18),
but TimSort's galloping merge emits `(10, 18)` *before* `(10, 7)` (output
positions 9 and 10).  This contradicts the claim and the source's own
documentation (`timSort.ts` header: "Stable sort"). -/
theorem C2_timsort_gallop_instability :
    pairKeyCmp (10, 7) (10, 18) = 0
    ∧ c2Input.indexOf ((10 : Int), (7 : Nat)) < c2Input.indexOf ((10 : Int), (18 : Nat))
    ∧ ((TimSortSort c2Input { compare := pairKeyCmp }).result).indexOf ((10 : Int), (18 : Nat))
        < ((TimSortSort c2Input { compare := pairKeyCmp }).result).indexOf ((10 : Int), (7 : Nat)) := by
  decide

/-! ## The `Sort` facade (claim C9)

Embedding of `Sort.sort` and `Sort.benchmark` from `index.ts`,
specialised to numeric (`Int`) arrays.  Thrown errors are modelled with
`Except String`; `benchmark`'s `try/catch` drops a failed algorithm's
entry (after `console.warn`) and continues. -/

/-- `Sort.sort(arr, algorithm, options)`.  For `'radixSort'` the source
checks `typeof arr[0] === 'number'`: true for every non-empty numeric
array, false for the empty array (where `arr[0]` is `undefined`), in
which case it throws.  `options.base` is set from `config.radixBase`,
which defaults to 10. -/
def SortSort (arr : List Int) (algorithm : String) (opts : SortOptions Int) :
    Except String (SortResult Int) :=
  if algorithm = "quickSort" then .ok (QuickSortSort arr opts)
  else if algorithm = "mergeSort" then .ok (MergeSortSort arr opts)
  else if algorithm = "heapSort" then .ok (HeapSortSort arr opts)
  else if algorithm = "timSort" then .ok (TimSortSort arr opts)
  else if algorithm = "introSort" then .ok (IntroSortSort arr opts)
  else if algorithm = "radixSort" then
    match arr with
    | [] => .error "RadixSort is only supported for numbers"
    | _ :: _ => .ok (RadixSortSort arr opts 10)
  else .error ("Unknown algorithm: " ++ algorithm)

/-- The `algorithms` array inside `Sort.benchmark` — five names;
`'radixSort'` is not among them. -/
def benchmarkAlgorithms : List String :=
  ["quickSort", "mergeSort", "heapSort", "timSort", "introSort"]

/-- `Sort.benchmark`: run every algorithm in `benchmarkAlgorithms`,
catching (and merely logging) individual failures. -/
def SortBenchmark (arr : List Int) (opts : SortOptions Int) :
    List (String × SortResult Int) :=
  benchmarkAlgorithms.foldl
    (fun results algorithm =>
      match SortSort arr algorithm opts with
      | .ok r => results ++ [(algorithm, r)]
      | .error _ => results)
    []

/-- C9, amended: `Sort.benchmark` runs exactly the *five* sorters
`quickSort`, `mergeSort`, `heapSort`, `timSort`, `introSort` (not
`radixSort`), returns the name→result map with each entry equal to
`Sort.sort`'s result for that name, and never raises (failures would be
caught and logged, leaving that entry out). -/
theorem C9_benchmark_runs_five (arr : List Int) (opts : SortOptions Int) :
    SortBenchmark arr opts
      = [("quickSort", QuickSortSort arr opts), ("mergeSort", MergeSortSort arr opts),
         ("heapSort", HeapSortSort arr opts), ("timSort", TimSortSort arr opts),
         ("introSort", IntroSortSort arr opts)] := rfl

/-- C9 counterexample: on the concrete input `[3, 1, 2]` the map returned
by `benchmark` has entries for exactly five algorithms and none for
`radixSort`, contradicting the claim that every one of the six named
sorters is run. -/
theorem C9_counterexample :
    ((SortBenchmark [3, 1, 2] { compare := defaultCompare }).map Prod.fst)
      = ["quickSort", "mergeSort", "heapSort", "timSort", "introSort"]
    ∧ "radixSort" ∉ ((SortBenchmark [3, 1, 2] { compare := defaultCompare }).map Prod.fst) := by
  constructor
  · rfl
  · intro h
    rw [show ((SortBenchmark [3, 1, 2] { compare := defaultCompare }).map Prod.fst)
        = ["quickSort", "mergeSort", "heapSort", "timSort", "introSort"] from rfl] at h
    simp at h

/-! ## HashTable (claims C3, C4)

Embedding of the open-addressing `HashTable` from `hashTable.ts` for
numeric (`Nat`) keys and integer values, with the default constructor
(`initialCapacity = 16`, `loadFactor = 0.75`) and the default comparator
`(a, b) => a - b` (whose zero test on numbers is key equality).

The hash function folds the characters of `String(key)` (the decimal
digits for a `Nat` key) with `hash = (hash << 5) - hash + char` followed
by `hash = hash & hash`, i.e. truncation to a signed 32-bit integer; the
intermediate double-precision values are exact, so `toInt32` models the
truncation exactly.  `size / capacity >= 0.75` is the integer condition
`3 * capacity <= 4 * size`.

`put`'s probe loop is a do-while that stops after wrapping around, so the
capacity is its exact iteration bound.  The resize→re-put recursion is
given fuel; fuel 4 is more than the depth any state reachable through
this API can use (the invariant proof below never relies on that: every
branch, including fuel exhaustion, preserves the invariant). -/

/-- `HashEntry` from `hashTable.ts`. -/
structure HashEntry where
  key : Nat
  value : Int
  isDeleted : Bool
deriving Repr, DecidableEq

/-- The `HashTable` state. -/
structure HT where
  table : List (Option HashEntry)
  size : Nat
  capacity : Nat
deriving Repr, DecidableEq

/-- `new HashTable()` with the default capacity 16. -/
def HT.empty : HT := { table := List.replicate 16 none, size := 0, capacity := 16 }

/-- Decimal digits of a natural number, most significant first (the
characters of `String(key)`); fuel, for which `n` suffices. -/
def natDigits : Nat → Nat → List Nat
  | 0, _ => []
  | fuel + 1, n => if n < 10 then [n] else natDigits fuel (n / 10) ++ [n % 10]

/-- Truncation to a signed 32-bit integer (`hash & hash` on a JS number). -/
def toInt32 (x : Int) : Int := (x + 2 ^ 31) % 2 ^ 32 - 2 ^ 31

/-- One step of the rolling hash: `hash = ((hash << 5) - hash) + char`
(the `<< 5` already truncates) followed by `hash = hash & hash`. -/
def hashStep (h : Int) (c : Nat) : Int := toInt32 (toInt32 (h * 32) - h + c)

/-- `HashTable.hash`: fold the character codes (digit value + 48), then
`Math.abs(hash) % capacity`. -/
def htHash (key : Nat) (capacity : Nat) : Nat :=
  (((natDigits (key + 1) key).map (· + 48)).foldl hashStep 0).natAbs % capacity

/-- The probe loop of `HashTable.put`: first `null` or tombstone slot
takes a fresh entry (`true` = size grows), a live slot with an equal key
is updated in place (`false`), live non-matching slots are skipped.
`none` means the probe wrapped all the way around (table full of live
non-matching entries); fuel = capacity is the exact bound. -/
def probePut : Nat → List (Option HashEntry) → Nat → Nat → Int → Nat →
    Option (List (Option HashEntry) × Bool)
  | 0, _, _, _, _, _ => none
  | fuel + 1, table, capacity, key, value, idx =>
      match table.getD idx none with
      | none => some (table.set idx (some ⟨key, value, false⟩), true)
      | some e =>
          if e.isDeleted then some (table.set idx (some ⟨key, value, false⟩), true)
          else if (e.key : Int) - key = 0 then
            some (table.set idx (some { e with value := value }), false)
          else probePut fuel table capacity key value ((idx + 1) % capacity)

/-- `HashTable.put`, with structural fuel for the resize→re-put
recursion (`resize` re-inserts every live entry via `put`). -/
def htPutFuel : Nat → HT → Nat → Int → HT
  | 0, s, _, _ => s
  | fuel + 1, s, key, value =>
      let s1 :=
        if 3 * s.capacity ≤ 4 * s.size then
          s.table.foldl
            (fun acc entry =>
              match entry with
              | some e => if e.isDeleted then acc else htPutFuel fuel acc e.key e.value
              | none => acc)
            { table := List.replicate (s.capacity * 2) none, size := 0,
              capacity := s.capacity * 2 }
        else s
      match probePut s1.capacity s1.table s1.capacity key value (htHash key s1.capacity) with
      | some (t, inserted) =>
          { s1 with table := t, size := s1.size + if inserted then 1 else 0 }
      | none =>
          let s2 := s1.table.foldl
            (fun acc entry =>
              match entry with
              | some e => if e.isDeleted then acc else htPutFuel fuel acc e.key e.value
              | none => acc)
            { table := List.replicate (s1.capacity * 2) none, size := 0,
              capacity := s1.capacity * 2 }
          match probePut s2.capacity s2.table s2.capacity key value (htHash key s2.capacity) with
          | some (t, inserted) =>
              { s2 with table := t, size := s2.size + if inserted then 1 else 0 }
          | none => s2

/-- `HashTable.resize(newCapacity)`: rehash every live entry into a fresh
table via `put` (the fold inlined in `htPutFuel` above). -/
def htResize (fuel : Nat) (s : HT) (newCapacity : Nat) : HT :=
  s.table.foldl
    (fun acc entry =>
      match entry with
      | some e => if e.isDeleted then acc else htPutFuel fuel acc e.key e.value
      | none => acc)
    { table := List.replicate newCapacity none, size := 0, capacity := newCapacity }

/-- `HashTable.put` as exposed by the API. -/
def htPut (s : HT) (key : Nat) (value : Int) : HT := htPutFuel 4 s key value

/-- The probe loop of `HashTable.findIndex`; stops at the first `null`
slot, skips tombstones and non-matching live slots. -/
def htFindIdx (s : HT) (key : Nat) : Nat → Nat → Option Nat
  | 0, _ => none
  | fuel + 1, idx =>
      match s.table.getD idx none with
      | none => none
      | some e =>
          if ¬ e.isDeleted ∧ (e.key : Int) - key = 0 then some idx
          else htFindIdx s key fuel ((idx + 1) % s.capacity)

/-- `HashTable.findIndex`. -/
def htFindIndex (s : HT) (key : Nat) : Option Nat :=
  htFindIdx s key s.capacity (htHash key s.capacity)

/-- `HashTable.get`. -/
def htGet (s : HT) (key : Nat) : Option Int :=
  match htFindIndex s key with
  | some i => (s.table.getD i none).map (fun e => e.value)
  | none => none

/-- `HashTable.has`. -/
def htHas (s : HT) (key : Nat) : Bool := (htFindIndex s key).isSome

/-- `HashTable.remove`: mark the found slot as a tombstone. -/
def htRemove (s : HT) (key : Nat) : HT × Bool :=
  match htFindIndex s key with
  | none => (s, false)
  | some i =>
      match s.table.getD i none with
      | some e =>
          ({ s with table := s.table.set i (some { e with isDeleted := true }),
                    size := s.size - 1 }, true)
      | none => (s, false)

/-- `HashTable.getLoadFactor`. -/
def htGetLoadFactor (s : HT) : ℚ := (s.size : ℚ) / s.capacity

/-- C3: the tombstone-reuse bug.  Keys 5 and 16 both hash to slot 5 (mod
16).  After `put(5,1); put(16,2); remove(5); put(16,3)`, the third put
reuses key 5's tombstone at slot 5 *before* reaching the live entry for
key 16 at slot 6, creating two live entries for key 16.  `remove(16)`
tombstones only the first; afterwards `get(16)` returns the stale value 2
and `has(16)` is true, while the claim (and `put`'s own doc comment
"Insert or update a key-value pair") requires `get` to be `undefined` and
`has` to be false after the removal. -/
theorem C3_tombstone_duplicate_bug :
    htHash 5 16 = htHash 16 16
    ∧ (let s := htPut HT.empty 5 1
       let s := htPut s 16 2
       let s := (htRemove s 5).1
       let s := htPut s 16 3
       let s := (htRemove s 16).1
       htGet s 16 = some 2 ∧ htHas s 16 = true) := by
  decide

/-- A sequence of `put` calls applied to a table. -/
def applyPuts (ops : List (Nat × Int)) (s : HT) : HT :=
  ops.foldl (fun s kv => htPut s kv.1 kv.2) s

/-- The 12 puts used as the C4 counterexample. -/
def c4Ops : List (Nat × Int) := (List.range 12).map (fun k => (k, 0))

set_option maxRecDepth 8192 in
/-- C4 counterexample: after the 12th `put` into a default table the load
factor is exactly `12/16 = 0.75` — the resize check runs *before* the
insert, so a put can leave the table at the threshold; the claimed strict
invariant `size/capacity < 0.75` does not hold the moment that put
returns. -/
theorem C4_counterexample :
    (applyPuts c4Ops HT.empty).size = 12 ∧ (applyPuts c4Ops HT.empty).capacity = 16
    ∧ ¬ (htGetLoadFactor (applyPuts c4Ops HT.empty) < 3 / 4) := by
  have h1 : (applyPuts c4Ops HT.empty).size = 12 := by decide
  have h2 : (applyPuts c4Ops HT.empty).capacity = 16 := by decide
  refine ⟨h1, h2, ?_⟩
  rw [htGetLoadFactor, h1, h2]
  norm_num

/-! ### The load-factor invariant (claim C4, amended)

For put-only sequences from a default table: immediately after every
`put`, `size / capacity ≤ 0.75` (it can reach the bound exactly, but
never exceed it). -/

/-- 1 for a live entry, 0 for `null` or a tombstone. -/
def liveBit : Option HashEntry → Nat
  | some e => if e.isDeleted then 0 else 1
  | none => 0

/-- Number of live entries in a table. -/
def liveCount (t : List (Option HashEntry)) : Nat := (t.map liveBit).sum

/-- The state invariant maintained by `put`. -/
def HTInv (s : HT) : Prop :=
  s.table.length = s.capacity ∧ s.size = liveCount s.table
  ∧ s.size * 4 ≤ s.capacity * 3 ∧ 4 ∣ s.capacity ∧ 0 < s.capacity

theorem liveCount_nil : liveCount [] = 0 := rfl

theorem liveCount_cons (o : Option HashEntry) (t : List (Option HashEntry)) :
    liveCount (o :: t) = liveBit o + liveCount t := by
  simp [liveCount]

theorem liveCount_replicate (n : Nat) : liveCount (List.replicate n none) = 0 := by
  induction n with
  | zero => rfl
  | succ n ih => rw [List.replicate_succ, liveCount_cons, ih]; rfl

theorem liveCount_set (l : List (Option HashEntry)) :
    ∀ (i : Nat) (x : Option HashEntry), i < l.length →
    liveCount (l.set i x) + liveBit (l.getD i none) = liveCount l + liveBit x := by
  induction l with
  | nil => intro i x h; simp at h
  | cons a t ih =>
      intro i x h
      cases i with
      | zero => simp [liveCount_cons]; omega
      | succ i =>
          simp only [List.set_cons_succ, liveCount_cons, List.getD_cons_succ]
          have := ih i x (by simpa using h)
          omega

theorem probePut_spec :
    ∀ (fuel : Nat) (table : List (Option HashEntry)) (cap key : Nat) (value : Int)
      (idx : Nat) (t : List (Option HashEntry)) (ins : Bool),
    table.length = cap → idx < cap →
    probePut fuel table cap key value idx = some (t, ins) →
    t.length = table.length ∧ liveCount t = liveCount table + (if ins then 1 else 0) := by
  intro fuel
  induction fuel with
  | zero => intro table cap key value idx t ins _ _ h; exact absurd h (by simp [probePut])
  | succ fuel ih =>
      intro table cap key value idx t ins hlen hidx h
      have hidx2 : idx < table.length := by omega
      rcases hslot : table.getD idx none with _ | e
      · simp only [probePut, hslot, Option.some.injEq, Prod.mk.injEq] at h
        obtain ⟨rfl, rfl⟩ := h
        have := liveCount_set table idx (some ⟨key, value, false⟩) hidx2
        rw [hslot] at this
        refine ⟨by simp, ?_⟩
        simp [liveBit] at this ⊢
        omega
      · simp only [probePut, hslot] at h
        by_cases hdel : e.isDeleted
        · rw [if_pos hdel] at h
          simp only [Option.some.injEq, Prod.mk.injEq] at h
          obtain ⟨rfl, rfl⟩ := h
          have := liveCount_set table idx (some ⟨key, value, false⟩) hidx2
          rw [hslot] at this
          refine ⟨by simp, ?_⟩
          simp [liveBit, hdel] at this ⊢
          omega
        · rw [if_neg hdel] at h
          by_cases hkey : (e.key : Int) - key = 0
          · rw [if_pos hkey] at h
            simp only [Option.some.injEq, Prod.mk.injEq] at h
            obtain ⟨rfl, rfl⟩ := h
            have := liveCount_set table idx (some { e with value := value }) hidx2
            rw [hslot] at this
            refine ⟨by simp, ?_⟩
            simp [liveBit, hdel] at this ⊢
            omega
          · rw [if_neg hkey] at h
            exact ih table cap key value ((idx + 1) % cap) t ins hlen
              (Nat.mod_lt _ (by omega)) h

/-- A fresh table of the given capacity (the state `resize` starts from). -/
def htFresh (cap : Nat) : HT :=
  { table := List.replicate cap none, size := 0, capacity := cap }

theorem htFresh_size (cap : Nat) : (htFresh cap).size = 0 := rfl

theorem htFresh_capacity (cap : Nat) : (htFresh cap).capacity = cap := rfl

theorem htFreshInv (cap : Nat) (hdvd : 4 ∣ cap) (hpos : 0 < cap) : HTInv (htFresh cap) := by
  refine ⟨by simp [htFresh], ?_, by simp [htFresh], hdvd, hpos⟩
  show (0 : Nat) = liveCount (List.replicate cap none)
  rw [liveCount_replicate]

/-- The rehash fold of `resize`: re-`put` every live entry of `es` into
`acc` (this is the fold inlined in `htPutFuel` and in `htResize`). -/
def htRehash (fuel : Nat) (es : List (Option HashEntry)) (acc : HT) : HT :=
  es.foldl
    (fun acc entry =>
      match entry with
      | some e => if e.isDeleted then acc else htPutFuel fuel acc e.key e.value
      | none => acc)
    acc

/-- The retry branch of `put` after an unsuccessful full-circle probe:
probe once more (into the freshly resized table). -/
def htPutRetry (s2 : HT) (key : Nat) (value : Int) : HT :=
  match probePut s2.capacity s2.table s2.capacity key value (htHash key s2.capacity) with
  | some (t, inserted) =>
      { s2 with table := t, size := s2.size + if inserted then 1 else 0 }
  | none => s2

/-- The body of `put` after the load-factor check: probe, and on a
full-circle failure resize (doubling) and retry. -/
def htPutCore (fuel : Nat) (s1 : HT) (key : Nat) (value : Int) : HT :=
  match probePut s1.capacity s1.table s1.capacity key value (htHash key s1.capacity) with
  | some (t, inserted) =>
      { s1 with table := t, size := s1.size + if inserted then 1 else 0 }
  | none =>
      htPutRetry (htRehash fuel s1.table (htFresh (s1.capacity * 2))) key value

theorem htPutFuel_succ (fuel : Nat) (s : HT) (key : Nat) (value : Int) :
    htPutFuel (fuel + 1) s key value =
      htPutCore fuel
        (if 3 * s.capacity ≤ 4 * s.size
          then htRehash fuel s.table (htFresh (s.capacity * 2))
          else s) key value := rfl

/-- Applying a successful probe to the state preserves the invariant,
provided there is room for one more live entry when a fresh slot is
taken. -/
theorem htApplyProbe_inv (s1 : HT) (t : List (Option HashEntry)) (ins : Bool)
    (key : Nat) (value : Int) (hInv : HTInv s1)
    (hp : probePut s1.capacity s1.table s1.capacity key value (htHash key s1.capacity)
        = some (t, ins))
    (hroom : ins = true → (s1.size + 1) * 4 ≤ s1.capacity * 3) :
    HTInv { s1 with table := t, size := s1.size + if ins then 1 else 0 } := by
  obtain ⟨hlen, hsz, hbound, hdvd, hpos⟩ := hInv
  obtain ⟨hlen2, hlive⟩ := probePut_spec s1.capacity s1.table s1.capacity key value
    (htHash key s1.capacity) t ins hlen (Nat.mod_lt _ hpos) hp
  refine ⟨by simpa [hlen2] using hlen, ?_, ?_, hdvd, hpos⟩
  · show s1.size + (if ins then 1 else 0) = liveCount t
    rw [hlive, ← hsz]
  · show (s1.size + (if ins then 1 else 0)) * 4 ≤ s1.capacity * 3
    cases hins : ins
    · simpa using hbound
    · simpa using hroom hins

theorem htPutRetry_inv (s2 : HT) (key : Nat) (value : Int) (hInv : HTInv s2)
    (hroom : (s2.size + 1) * 4 ≤ s2.capacity * 3) :
    HTInv (htPutRetry s2 key value)
    ∧ (htPutRetry s2 key value).size ≤ s2.size + 1
    ∧ (htPutRetry s2 key value).capacity = s2.capacity := by
  rcases hprobe : probePut s2.capacity s2.table s2.capacity key value
      (htHash key s2.capacity) with _ | ⟨t, ins⟩
  · have hval : htPutRetry s2 key value = s2 := by
      unfold htPutRetry; rw [hprobe]
    rw [hval]
    exact ⟨hInv, Nat.le_succ _, rfl⟩
  · have hval : htPutRetry s2 key value
        = { s2 with table := t, size := s2.size + if ins then 1 else 0 } := by
      unfold htPutRetry; rw [hprobe]
    rw [hval]
    refine ⟨htApplyProbe_inv s2 t ins key value hInv hprobe (fun _ => hroom), ?_, rfl⟩
    show s2.size + (if ins then 1 else 0) ≤ s2.size + 1
    cases ins <;> simp

theorem htPutCore_inv (fuel : Nat) (s1 : HT) (key : Nat) (value : Int)
    (hInv : HTInv s1) (hroom : (s1.size + 1) * 4 ≤ s1.capacity * 3)
    (hfold : ∀ (es : List (Option HashEntry)) (acc : HT), HTInv acc →
        HTInv (htRehash fuel es acc)
        ∧ (htRehash fuel es acc).size ≤ acc.size + liveCount es
        ∧ acc.capacity ≤ (htRehash fuel es acc).capacity) :
    HTInv (htPutCore fuel s1 key value)
    ∧ (htPutCore fuel s1 key value).size ≤ s1.size + 1
    ∧ s1.capacity ≤ (htPutCore fuel s1 key value).capacity := by
  rcases hprobe : probePut s1.capacity s1.table s1.capacity key value
      (htHash key s1.capacity) with _ | ⟨t, ins⟩
  · have hval : htPutCore fuel s1 key value
        = htPutRetry (htRehash fuel s1.table (htFresh (s1.capacity * 2))) key value := by
      unfold htPutCore; rw [hprobe]
    rw [hval]
    have hs1cap4 : 4 ≤ s1.capacity := by
      obtain ⟨-, -, -, hdvd, hpos⟩ := hInv
      omega
    have hinit2Inv : HTInv (htFresh (s1.capacity * 2)) := by
      obtain ⟨-, -, -, hdvd, hpos⟩ := hInv
      exact htFreshInv _ (Dvd.dvd.mul_right hdvd 2) (by omega)
    have hr2 := hfold s1.table (htFresh (s1.capacity * 2)) hinit2Inv
    obtain ⟨hs2Inv, hs2sz, hs2cap⟩ := hr2
    rw [htFresh_size] at hs2sz
    rw [htFresh_capacity] at hs2cap
    have hs2szle : (htRehash fuel s1.table (htFresh (s1.capacity * 2))).size ≤ s1.size := by
      obtain ⟨-, hsz, -, -, -⟩ := hInv
      omega
    have hs2room : ((htRehash fuel s1.table (htFresh (s1.capacity * 2))).size + 1) * 4
        ≤ (htRehash fuel s1.table (htFresh (s1.capacity * 2))).capacity * 3 := by
      obtain ⟨-, -, hbound1, -, -⟩ := hInv
      omega
    have hretry := htPutRetry_inv _ key value hs2Inv hs2room
    obtain ⟨hrInv, hrsz, hrcap⟩ := hretry
    exact ⟨hrInv, by omega, by omega⟩
  · have hval : htPutCore fuel s1 key value
        = { s1 with table := t, size := s1.size + if ins then 1 else 0 } := by
      unfold htPutCore; rw [hprobe]
    rw [hval]
    refine ⟨htApplyProbe_inv s1 t ins key value hInv hprobe (fun _ => hroom), ?_, ?_⟩
    · show s1.size + (if ins then 1 else 0) ≤ s1.size + 1
      cases ins <;> simp
    · show s1.capacity ≤ s1.capacity
      exact Nat.le_refl _

/-- `put` (at every fuel) preserves the invariant, grows `size` by at
most one and never shrinks the capacity. -/
theorem htPutFuel_inv :
    ∀ (fuel : Nat) (s : HT) (key : Nat) (value : Int), HTInv s →
    HTInv (htPutFuel fuel s key value)
    ∧ (htPutFuel fuel s key value).size ≤ s.size + 1
    ∧ s.capacity ≤ (htPutFuel fuel s key value).capacity := by
  intro fuel
  induction fuel with
  | zero => intro s key value h; exact ⟨h, Nat.le_succ _, Nat.le_refl _⟩
  | succ fuel ih =>
      intro s key value hInv
      have hcap4 : 4 ≤ s.capacity := by
        obtain ⟨-, -, -, hdvd, hpos⟩ := hInv
        omega
      have hfold : ∀ (es : List (Option HashEntry)) (acc : HT), HTInv acc →
          HTInv (htRehash fuel es acc)
          ∧ (htRehash fuel es acc).size ≤ acc.size + liveCount es
          ∧ acc.capacity ≤ (htRehash fuel es acc).capacity := by
        intro es
        induction es with
        | nil =>
            intro acc hacc
            exact ⟨hacc, by simp [htRehash, liveCount_nil], Nat.le_refl _⟩
        | cons o rest ihes =>
            intro acc hacc
            cases o with
            | none =>
                have := ihes acc hacc
                simp only [htRehash, List.foldl_cons] at this ⊢
                rw [liveCount_cons]
                exact ⟨this.1, by have := this.2.1; simp [liveBit] at *; omega, this.2.2⟩
            | some e =>
                by_cases hdel : e.isDeleted
                . have := ihes acc hacc
                  simp only [htRehash, List.foldl_cons, hdel, if_true] at this ⊢
                  rw [liveCount_cons]
                  exact ⟨this.1, by have := this.2.1; simp [liveBit, hdel] at *; omega,
                    this.2.2⟩
                . have hstep := ih acc e.key e.value hacc
                  have := ihes (htPutFuel fuel acc e.key e.value) hstep.1
                  simp only [htRehash, List.foldl_cons, hdel, if_false] at this ⊢
                  rw [liveCount_cons]
                  refine ⟨this.1, ?_, le_trans hstep.2.2 this.2.2⟩
                  have h1 := this.2.1
                  have h2 := hstep.2.1
                  simp [liveBit, hdel]
                  omega
      rw [htPutFuel_succ]
      have hinit1Inv : HTInv (htFresh (s.capacity * 2)) := by
        obtain ⟨-, -, -, hdvd, hpos⟩ := hInv
        exact htFreshInv _ (Dvd.dvd.mul_right hdvd 2) (by omega)
      have hs1facts : ∀ s1 : HT,
          s1 = (if 3 * s.capacity ≤ 4 * s.size
            then htRehash fuel s.table (htFresh (s.capacity * 2)) else s) →
          HTInv s1 ∧ s1.size ≤ s.size ∧ s.capacity ≤ s1.capacity
          ∧ (s1.size + 1) * 4 ≤ s1.capacity * 3 := by
        intro s1 hs1def
        by_cases hcond : 3 * s.capacity ≤ 4 * s.size
        · rw [if_pos hcond] at hs1def
          subst hs1def
          have hr := hfold s.table (htFresh (s.capacity * 2)) hinit1Inv
          obtain ⟨hrInv, hrsz, hrcap⟩ := hr
          rw [htFresh_size] at hrsz
          rw [htFresh_capacity] at hrcap
          have hszle : (htRehash fuel s.table (htFresh (s.capacity * 2))).size
              ≤ s.size := by
            obtain ⟨-, hsz, -, -, -⟩ := hInv
            omega
          refine ⟨hrInv, hszle, by omega, ?_⟩
          obtain ⟨-, -, hbound, -, -⟩ := hInv
          omega
        · rw [if_neg hcond] at hs1def
          subst hs1def
          refine ⟨hInv, Nat.le_refl _, Nat.le_refl _, ?_⟩
          obtain ⟨-, -, hbound, hdvd, hpos⟩ := hInv
          omega
      obtain ⟨hs1Inv, hs1sz, hs1cap, hs1room⟩ := hs1facts _ rfl
      have hcore := htPutCore_inv fuel
        (if 3 * s.capacity ≤ 4 * s.size
          then htRehash fuel s.table (htFresh (s.capacity * 2)) else s)
        key value hs1Inv hs1room hfold
      exact ⟨hcore.1, by omega, by omega⟩

/-- C4, amended: for *every* sequence of `put` calls into a default
table, immediately after every put returns the load factor satisfies
`size/capacity ≤ 0.75` — the threshold can be reached exactly (see the
counterexample) but never exceeded, because capacity is doubled at the
start of any `put` that begins at or above the threshold. -/
theorem C4_put_load_factor_le (ops : List (Nat × Int)) :
    (applyPuts ops HT.empty).size * 4 ≤ (applyPuts ops HT.empty).capacity * 3
    ∧ htGetLoadFactor (applyPuts ops HT.empty) ≤ 3 / 4 := by
  have hstart : HTInv HT.empty := by
    refine ⟨by decide, ?_, by decide, by decide, by decide⟩
    show (0 : Nat) = liveCount (List.replicate 16 none)
    rw [liveCount_replicate]
  have hall : ∀ (l : List (Nat × Int)) (s : HT), HTInv s → HTInv (applyPuts l s) := by
    intro l
    induction l with
    | nil => intro s h; exact h
    | cons kv rest ihl =>
        intro s h
        have hstep := (htPutFuel_inv 4 s kv.1 kv.2 h).1
        simpa [applyPuts, htPut] using ihl (htPutFuel 4 s kv.1 kv.2) hstep
  have hinv := hall ops HT.empty hstart
  obtain ⟨hlen, hsz, hbound, hdvd, hpos⟩ := hinv
  refine ⟨hbound, ?_⟩
  rw [htGetLoadFactor]
  have hc : (0 : ℚ) < ((applyPuts ops HT.empty).capacity : ℚ) := by exact_mod_cast hpos
  rw [div_le_div_iff hc (by norm_num : (0 : ℚ) < 4)]
  have : ((applyPuts ops HT.empty).size : ℚ) * 4
      ≤ ((applyPuts ops HT.empty).capacity : ℚ) * 3 := by exact_mod_cast hbound
  linarith

/-! ## BinarySearchTree and AVLTree (claims C5, C10)

Embedding of `BinarySearchTree` and `AVLTree` from `treeSearch.ts` for
`Int` keys and values with the default comparator `(a, b) => a - b`
(`comparison === 0` iff the keys are equal, `< 0` iff `k < key`).
Parent back-references only mirror the owning links and never influence
the key/height structure, so they are not modelled. -/

/-- `BSTNode` / the shape of a binary search tree. -/
inductive BSTT where
  | nil
  | node (left : BSTT) (key : Int) (value : Int) (right : BSTT)
deriving Repr, DecidableEq

/-- The walk of `BinarySearchTree.insert`/`findNode` as a recursive
function: update the value on an equal key, otherwise descend. -/
def bstInsertNode : BSTT → Int → Int → BSTT
  | .nil, k, v => .node .nil k v .nil
  | .node l key value r, k, v =>
      if k - key = 0 then .node l key v r
      else if k - key < 0 then .node (bstInsertNode l k v) key value r
      else .node l key value (bstInsertNode r k v)

/-- Whether the `insert` walk terminates on an equal key (in which case
the source updates in place and does not increment `size`). -/
def bstContains : BSTT → Int → Bool
  | .nil, _ => false
  | .node l key _ r, k =>
      if k - key = 0 then true
      else if k - key < 0 then bstContains l k else bstContains r k

/-- `BinarySearchTree` with its `size` counter. -/
structure BST where
  root : BSTT
  size : Nat
deriving Repr, DecidableEq

def BST.empty : BST := { root := .nil, size := 0 }

/-- `BinarySearchTree.insert`: an empty tree gets the node and
`size = 1`; otherwise the walk either updates an existing key (size
unchanged) or attaches a new leaf (size incremented). -/
def bstInsert (t : BST) (k v : Int) : BST :=
  match t.root with
  | .nil => { root := .node .nil k v .nil, size := 1 }
  | root =>
      if bstContains root k then { root := bstInsertNode root k v, size := t.size }
      else { root := bstInsertNode root k v, size := t.size + 1 }

/-- `BinarySearchTree.search` (via `findNode`). -/
def bstSearch : BSTT → Int → Option Int
  | .nil, _ => none
  | .node l key value r, k =>
      if k - key = 0 then some value
      else if k - key < 0 then bstSearch l k else bstSearch r k

/-- `AVLNode` / the shape of an AVL tree with its stored `height`. -/
inductive AVLT where
  | nil
  | node (left : AVLT) (key : Int) (value : Int) (right : AVLT) (height : Nat)
deriving Repr, DecidableEq

/-- `AVLTree.getHeight`: the *stored* height, 0 for `null`. -/
def getHeight : AVLT → Nat
  | .nil => 0
  | .node _ _ _ _ h => h

/-- `AVLTree.updateHeight`: recompute the stored height from the
children's stored heights. -/
def updateHeight : AVLT → AVLT
  | .nil => .nil
  | .node l k v r _ => .node l k v r (max (getHeight l) (getHeight r) + 1)

/-- Key at the root (`node.key`); the `.nil` default is never consulted
on the paths the source traverses (`node.left!` / `node.right!` are only
dereferenced under a balance-factor guard that forces the child to be
non-null). -/
def rootKey : AVLT → Int
  | .nil => 0
  | .node _ k _ _ _ => k

def leftOf : AVLT → AVLT
  | .nil => .nil
  | .node l _ _ _ _ => l

def rightOf : AVLT → AVLT
  | .nil => .nil
  | .node _ _ _ r _ => r

/-- `AVLTree.rightRotate`. -/
def rightRotate : AVLT → AVLT
  | .node (.node ll lk lv lr lh) k v r h =>
      updateHeight (.node ll lk lv (updateHeight (.node lr k v r h)) lh)
  | t => t

/-- `AVLTree.leftRotate`. -/
def leftRotate : AVLT → AVLT
  | .node l k v (.node rl rk rv rr rh) h =>
      updateHeight (.node (updateHeight (.node l k v rl h)) rk rv rr rh)
  | t => t

/-- The tail of `AVLTree.insertNode` after the recursive insertion:
`updateHeight(node)`, read the balance factor from the stored heights,
then the four rotation cases, choosing by comparing the inserted key with
the post-insert child's root key (exactly as the source does). -/
def avlRebalance (l : AVLT) (key value : Int) (r : AVLT) (k : Int) : AVLT :=
  let h2 := max (getHeight l) (getHeight r) + 1
  let bal : Int := (getHeight l : Int) - getHeight r
  if 1 < bal ∧ k - rootKey l < 0 then rightRotate (.node l key value r h2)
  else if bal < -1 ∧ 0 < k - rootKey r then leftRotate (.node l key value r h2)
  else if 1 < bal ∧ 0 < k - rootKey l then
    rightRotate (.node (leftRotate l) key value r h2)
  else if bal < -1 ∧ k - rootKey r < 0 then
    leftRotate (.node l key value (rightRotate r) h2)
  else .node l key value r h2

/-- `AVLTree.insertNode`. -/
def avlInsertNode : AVLT → Int → Int → AVLT
  | .nil, k, v => .node .nil k v .nil 1
  | .node l key value r h, k, v =>
      if k - key = 0 then .node l key v r h
      else if k - key < 0 then avlRebalance (avlInsertNode l k v) key value r k
      else avlRebalance l key value (avlInsertNode r k v) k

/-- `AVLTree` with its `size` counter. -/
structure AVLTree where
  root : AVLT
  size : Nat
deriving Repr, DecidableEq

def AVLTree.empty : AVLTree := { root := .nil, size := 0 }

/-- `AVLTree.insert`: `this.root = insertNode(...); this.size++` — the
counter is incremented unconditionally, even when `insertNode` merely
updated an existing key. -/
def avlInsert (t : AVLTree) (k v : Int) : AVLTree :=
  { root := avlInsertNode t.root k v, size := t.size + 1 }

/-- `AVLTree.search` (via `findNode`). -/
def avlSearch : AVLT → Int → Option Int
  | .nil, _ => none
  | .node l key value r _, k =>
      if k - key = 0 then some value
      else if k - key < 0 then avlSearch l k else avlSearch r k

/-- `inorder()` key sequence (both trees use the same traversal). -/
def inorder : AVLT → List Int
  | .nil => []
  | .node l k _ r _ => inorder l ++ k :: inorder r

/-- A sequence of `AVLTree.insert` calls from a fresh tree. -/
def applyAvlInserts (ops : List (Int × Int)) (t : AVLTree) : AVLTree :=
  ops.foldl (fun t kv => avlInsert t kv.1 kv.2) t

/-- C10: inserting the same key twice into a fresh AVL tree leaves exactly
one node holding it (`search` returns the second value, `inorder` lists
the key once) yet `getSize()` returns 2, because `AVLTree.insert`
increments its counter on every call; `AVLTree`'s size counts insert
calls (`size = number of inserts`, last conjunct), whereas
`BinarySearchTree.insert` with an already-present key updates the value
and leaves its size at 1. -/
theorem C10_avl_size_counts_inserts (k v1 v2 : Int) (ops : List (Int × Int)) :
    (avlSearch (avlInsert (avlInsert AVLTree.empty k v1) k v2).root k = some v2
      ∧ inorder (avlInsert (avlInsert AVLTree.empty k v1) k v2).root = [k]
      ∧ (avlInsert (avlInsert AVLTree.empty k v1) k v2).size = 2)
    ∧ (applyAvlInserts ops AVLTree.empty).size = ops.length
    ∧ ((bstInsert (bstInsert BST.empty k v1) k v2).size = 1
      ∧ bstSearch (bstInsert (bstInsert BST.empty k v1) k v2).root k = some v2) := by
  have havlsize : ∀ (l : List (Int × Int)) (t : AVLTree),
      (applyAvlInserts l t).size = t.size + l.length := by
    intro l
    induction l with
    | nil => intro t; simp [applyAvlInserts]
    | cons kv rest ihl =>
        intro t
        have := ihl (avlInsert t kv.1 kv.2)
        simp [applyAvlInserts] at this ⊢
        rw [this]
        simp [avlInsert]
        omega
  refine ⟨⟨?_, ?_, ?_⟩, ?_, ?_, ?_⟩
  · simp [AVLTree.empty, avlInsert, avlInsertNode, avlSearch]
  · simp [AVLTree.empty, avlInsert, avlInsertNode, inorder]
  · simp [AVLTree.empty, avlInsert]
  · have := havlsize ops AVLTree.empty
    simpa [AVLTree.empty] using this
  · simp [BST.empty, bstInsert, bstContains, bstInsertNode]
  · simp [BST.empty, bstInsert, bstContains, bstInsertNode, bstSearch]

/-! ### AVL invariants (claim C5) -/

/-- Real (recomputed) height of an AVL shape, ignoring the stored field. -/
def hgt : AVLT → Nat
  | .nil => 0
  | .node l _ _ r _ => max (hgt l) (hgt r) + 1

/-- Every stored `height` field equals the real height. -/
def HeightsOk : AVLT → Prop
  | .nil => True
  | .node l _ _ r h => h = max (hgt l) (hgt r) + 1 ∧ HeightsOk l ∧ HeightsOk r

/-- Every node's subtree heights differ by at most one (claim C5's balance
condition, over real heights). -/
def BalancedT : AVLT → Prop
  | .nil => True
  | .node l _ _ r _ =>
      (hgt l : Int) - hgt r ≤ 1 ∧ (hgt r : Int) - hgt l ≤ 1 ∧ BalancedT l ∧ BalancedT r

def loLt : Option Int → Int → Prop
  | none, _ => True
  | some a, k => a < k

def hiGt : Int → Option Int → Prop
  | _, none => True
  | k, some b => k < b

/-- Search-tree ordering: every key lies in the open interval (lo, hi). -/
def OrderedB : AVLT → Option Int → Option Int → Prop
  | .nil, _, _ => True
  | .node l k _ r _, lo, hi =>
      loLt lo k ∧ hiGt k hi ∧ OrderedB l lo (some k) ∧ OrderedB r (some k) hi

/-- Balance factor over real heights. -/
def balInt (t : AVLT) : Int := (hgt (leftOf t) : Int) - hgt (rightOf t)

theorem getHeight_eq_hgt : ∀ {t : AVLT}, HeightsOk t → getHeight t = hgt t := by
  intro t h
  cases t with
  | nil => rfl
  | node l k v r ht =>
      simp only [HeightsOk] at h
      simp only [getHeight, hgt]
      exact h.1

theorem hiGt_trans {p q : Int} {hi : Option Int} (h1 : p < q) (h2 : hiGt q hi) :
    hiGt p hi := by
  cases hi with
  | none => trivial
  | some b => simp only [hiGt] at h2 ⊢; omega

theorem loLt_trans {p q : Int} {lo : Option Int} (h1 : loLt lo p) (h2 : p < q) :
    loLt lo q := by
  cases lo with
  | none => trivial
  | some a => simp only [loLt] at h1 ⊢; omega

theorem hgt_pos_ne_nil {t : AVLT} (h : 0 < hgt t) : t ≠ AVLT.nil := by
  intro hn
  subst hn
  simp [hgt] at h

theorem getHeight_node (l : AVLT) (k v : Int) (r : AVLT) (h : Nat) :
    getHeight (.node l k v r h) = h := rfl

theorem rootKey_node (l : AVLT) (k v : Int) (r : AVLT) (h : Nat) :
    rootKey (.node l k v r h) = k := rfl

theorem rightRotate_eq (a : AVLT) (p pv : Int) (b : AVLT) (hp : Nat)
    (key value : Int) (r : AVLT) (h : Nat) :
    rightRotate (.node (.node a p pv b hp) key value r h)
    = .node a p pv (.node b key value r (max (getHeight b) (getHeight r) + 1))
        (max (getHeight a) (max (getHeight b) (getHeight r) + 1) + 1) := rfl

theorem leftRotate_eq (l : AVLT) (k v : Int) (rl : AVLT) (rk rv : Int)
    (rr : AVLT) (rh : Nat) (h : Nat) :
    leftRotate (.node l k v (.node rl rk rv rr rh) h)
    = .node (.node l k v rl (max (getHeight l) (getHeight rl) + 1)) rk rv rr
        (max (max (getHeight l) (getHeight rl) + 1) (getHeight rr) + 1) := rfl

/-- When the rebalanced node is within the AVL bound no rotation fires and
`avlRebalance` only rebuilds the node with the recomputed height. -/
theorem avlRebalance_eq_of_bal (l : AVLT) (key value : Int) (r : AVLT) (k : Int)
    (hl : HeightsOk l) (hr : HeightsOk r)
    (hb1 : (hgt l : Int) - hgt r ≤ 1) (hb2 : (hgt r : Int) - hgt l ≤ 1) :
    avlRebalance l key value r k = .node l key value r (max (hgt l) (hgt r) + 1) := by
  have e1 := getHeight_eq_hgt hl
  have e2 := getHeight_eq_hgt hr
  simp only [avlRebalance, e1, e2]
  have c1 : ¬(1 < (hgt l : Int) - hgt r ∧ k - rootKey l < 0) := by
    rintro ⟨hc, -⟩; omega
  have c2 : ¬((hgt l : Int) - hgt r < -1 ∧ 0 < k - rootKey r) := by
    rintro ⟨hc, -⟩; omega
  have c3 : ¬(1 < (hgt l : Int) - hgt r ∧ 0 < k - rootKey l) := by
    rintro ⟨hc, -⟩; omega
  have c4 : ¬((hgt l : Int) - hgt r < -1 ∧ k - rootKey r < 0) := by
    rintro ⟨hc, -⟩; omega
  rw [if_neg c1, if_neg c2, if_neg c3, if_neg c4]

/-- Left-heavy rebalance: after a left insertion that pushed the balance
factor to +2, the LL or LR rotation restores all invariants and the
resulting height equals the (new) left child's height. -/
theorem avlRebalance_leftHeavy (l : AVLT) (key value : Int) (r : AVLT) (k : Int)
    (lo hi : Option Int)
    (hl : HeightsOk l) (hr : HeightsOk r)
    (hbl : BalancedT l) (hbr : BalancedT r)
    (hol : OrderedB l lo (some key)) (hor : OrderedB r (some key) hi)
    (hlk : loLt lo key) (hkh : hiGt key hi)
    (hbal : (hgt l : Int) - hgt r = 2)
    (hcase : (k < rootKey l ∧ balInt l = 1) ∨ (rootKey l < k ∧ balInt l = -1)) :
    HeightsOk (avlRebalance l key value r k)
    ∧ BalancedT (avlRebalance l key value r k)
    ∧ OrderedB (avlRebalance l key value r k) lo hi
    ∧ hgt (avlRebalance l key value r k) = hgt l := by
  have e1 := getHeight_eq_hgt hl
  have e2 := getHeight_eq_hgt hr
  cases l with
  | nil => simp [hgt] at hbal; omega
  | node a p pv b hp =>
      simp only [HeightsOk] at hl
      obtain ⟨hpstore, hHa, hHb⟩ := hl
      simp only [BalancedT] at hbl
      obtain ⟨hba1, hba2, hBa, hBb⟩ := hbl
      simp only [OrderedB] at hol
      obtain ⟨hlop, hpk, hOa, hOb⟩ := hol
      have hpklt : p < key := by simpa [hiGt] using hpk
      have ea := getHeight_eq_hgt hHa
      have eb := getHeight_eq_hgt hHb
      simp only [rootKey_node, balInt, leftOf, rightOf] at hcase
      have hLhgt : hgt (AVLT.node a p pv b hp) = max (hgt a) (hgt b) + 1 := rfl
      rcases hcase with ⟨hkp, hab⟩ | ⟨hpk2, hab⟩
      · -- LL case: the first rotation condition fires
        have hcond : 1 < (hgt (AVLT.node a p pv b hp) : Int) - hgt r ∧ k - p < 0 := by
          constructor <;> omega
        have heq : avlRebalance (AVLT.node a p pv b hp) key value r k
            = rightRotate (.node (.node a p pv b hp) key value r
                (max (getHeight (AVLT.node a p pv b hp)) (getHeight r) + 1)) := by
          simp only [avlRebalance, e1, e2, rootKey_node]
          rw [if_pos hcond]
        rw [heq, rightRotate_eq]
        simp only [getHeight_node, ea, eb, e2]
        have h1 : hgt a = hgt r + 1 := by rw [hLhgt] at hbal; omega
        have h2 : hgt b = hgt r := by rw [hLhgt] at hbal; omega
        refine ⟨?_, ?_, ?_, ?_⟩
        · simp only [HeightsOk, hgt]
          exact ⟨by simp, hHa, by simp, hHb, hr⟩
        · simp only [BalancedT, hgt]
          refine ⟨by omega, by omega, hBa, by omega, by omega, hBb, hbr⟩
        · simp only [OrderedB]
          refine ⟨hlop, hiGt_trans hpklt hkh, hOa, ?_, hkh, hOb, hor⟩
          simpa [loLt] using hpklt
        · simp only [hgt]
          omega
      · -- LR case: the third rotation condition fires
        have hcond1 : ¬(1 < (hgt (AVLT.node a p pv b hp) : Int) - hgt r ∧ k - p < 0) := by
          rintro ⟨-, hc⟩; omega
        have hcond2 : ¬((hgt (AVLT.node a p pv b hp) : Int) - hgt r < -1
            ∧ 0 < k - rootKey r) := by
          rintro ⟨hc, -⟩; omega
        have hcond3 : 1 < (hgt (AVLT.node a p pv b hp) : Int) - hgt r ∧ 0 < k - p := by
          constructor <;> omega
        have heq : avlRebalance (AVLT.node a p pv b hp) key value r k
            = rightRotate (.node (leftRotate (AVLT.node a p pv b hp)) key value r
                (max (getHeight (AVLT.node a p pv b hp)) (getHeight r) + 1)) := by
          simp only [avlRebalance, e1, e2, rootKey_node]
          rw [if_neg hcond1, if_neg hcond2, if_pos hcond3]
        -- b is the taller child, hence non-nil
        have hbhgt : hgt b = hgt r + 1 := by rw [hLhgt] at hbal; omega
        have hahgt : hgt a = hgt r := by rw [hLhgt] at hbal; omega
        cases b with
        | nil => simp [hgt] at hbhgt
        | node ba q qv bb hb =>
            simp only [HeightsOk] at hHb
            obtain ⟨hbstore, hHba, hHbb⟩ := hHb
            simp only [BalancedT] at hBb
            obtain ⟨hbb1, hbb2, hBba, hBbb⟩ := hBb
            simp only [OrderedB] at hOb
            obtain ⟨hpq, hqk, hOba, hObb⟩ := hOb
            have hpqlt : p < q := by simpa [loLt] using hpq
            have hqklt : q < key := by simpa [hiGt] using hqk
            have eba := getHeight_eq_hgt hHba
            have ebb := getHeight_eq_hgt hHbb
            have hBhgt : hgt (AVLT.node ba q qv bb hb) = max (hgt ba) (hgt bb) + 1 := rfl
            have hmax : max (hgt ba) (hgt bb) = hgt r := by
              rw [hBhgt] at hbhgt; omega
            rw [heq, leftRotate_eq, rightRotate_eq]
            simp only [getHeight_node, ea, eba, ebb, e2]
            refine ⟨?_, ?_, ?_, ?_⟩
            · simp only [HeightsOk, hgt]
              exact ⟨by simp, ⟨by simp, hHa, hHba⟩, by simp, hHbb, hr⟩
            · simp only [BalancedT, hgt]
              refine ⟨by omega, by omega, ⟨by omega, by omega, hBa, hBba⟩,
                by omega, by omega, hBbb, hbr⟩
            · simp only [OrderedB]
              refine ⟨loLt_trans hlop hpqlt, hiGt_trans hqklt hkh,
                ⟨hlop, ?_, hOa, hOba⟩, ?_, hkh, hObb, hor⟩
              · simpa [hiGt] using hpqlt
              · simpa [loLt] using hqklt
            · simp only [hgt]
              omega

/-- Right-heavy rebalance: symmetric to `avlRebalance_leftHeavy`. -/
theorem avlRebalance_rightHeavy (l : AVLT) (key value : Int) (r : AVLT) (k : Int)
    (lo hi : Option Int)
    (hl : HeightsOk l) (hr : HeightsOk r)
    (hbl : BalancedT l) (hbr : BalancedT r)
    (hol : OrderedB l lo (some key)) (hor : OrderedB r (some key) hi)
    (hlk : loLt lo key) (hkh : hiGt key hi)
    (hbal : (hgt r : Int) - hgt l = 2)
    (hcase : (rootKey r < k ∧ balInt r = -1) ∨ (k < rootKey r ∧ balInt r = 1)) :
    HeightsOk (avlRebalance l key value r k)
    ∧ BalancedT (avlRebalance l key value r k)
    ∧ OrderedB (avlRebalance l key value r k) lo hi
    ∧ hgt (avlRebalance l key value r k) = hgt r := by
  have e1 := getHeight_eq_hgt hl
  have e2 := getHeight_eq_hgt hr
  cases r with
  | nil => simp [hgt] at hbal; omega
  | node a p pv b hp =>
      simp only [HeightsOk] at hr
      obtain ⟨hpstore, hHa, hHb⟩ := hr
      simp only [BalancedT] at hbr
      obtain ⟨hba1, hba2, hBa, hBb⟩ := hbr
      simp only [OrderedB] at hor
      obtain ⟨hkp, hphi, hOa, hOb⟩ := hor
      have hkplt : key < p := by simpa [loLt] using hkp
      have ea := getHeight_eq_hgt hHa
      have eb := getHeight_eq_hgt hHb
      simp only [rootKey_node, balInt, leftOf, rightOf] at hcase
      have hRhgt : hgt (AVLT.node a p pv b hp) = max (hgt a) (hgt b) + 1 := rfl
      rcases hcase with ⟨hpk, hab⟩ | ⟨hkp2, hab⟩
      · -- RR case: the second rotation condition fires
        have hcond1 : ¬(1 < (hgt l : Int) - hgt (AVLT.node a p pv b hp)
            ∧ k - rootKey l < 0) := by
          rintro ⟨hc, -⟩; omega
        have hcond2 : (hgt l : Int) - hgt (AVLT.node a p pv b hp) < -1 ∧ 0 < k - p := by
          constructor <;> omega
        have heq : avlRebalance l key value (AVLT.node a p pv b hp) k
            = leftRotate (.node l key value (.node a p pv b hp)
                (max (getHeight l) (getHeight (AVLT.node a p pv b hp)) + 1)) := by
          simp only [avlRebalance, e1, e2, rootKey_node]
          rw [if_neg hcond1, if_pos hcond2]
        rw [heq, leftRotate_eq]
        simp only [getHeight_node, e1, ea, eb]
        have h1 : hgt b = hgt l + 1 := by rw [hRhgt] at hbal; omega
        have h2 : hgt a = hgt l := by rw [hRhgt] at hbal; omega
        refine ⟨?_, ?_, ?_, ?_⟩
        · simp only [HeightsOk, hgt]
          exact ⟨by simp, ⟨by simp, hl, hHa⟩, hHb⟩
        · simp only [BalancedT, hgt]
          refine ⟨by omega, by omega, ⟨by omega, by omega, hbl, hBa⟩, hBb⟩
        · simp only [OrderedB]
          refine ⟨loLt_trans hlk hkplt, hphi, ⟨hlk, ?_, hol, hOa⟩, hOb⟩
          simpa [hiGt] using hkplt
        · simp only [hgt]
          omega
      · -- RL case: the fourth rotation condition fires
        have hcond1 : ¬(1 < (hgt l : Int) - hgt (AVLT.node a p pv b hp)
            ∧ k - rootKey l < 0) := by
          rintro ⟨hc, -⟩; omega
        have hcond2 : ¬((hgt l : Int) - hgt (AVLT.node a p pv b hp) < -1
            ∧ 0 < k - p) := by
          rintro ⟨-, hc⟩; omega
        have hcond3 : ¬(1 < (hgt l : Int) - hgt (AVLT.node a p pv b hp)
            ∧ 0 < k - rootKey l) := by
          rintro ⟨hc, -⟩; omega
        have hcond4 : (hgt l : Int) - hgt (AVLT.node a p pv b hp) < -1 ∧ k - p < 0 := by
          constructor <;> omega
        have heq : avlRebalance l key value (AVLT.node a p pv b hp) k
            = leftRotate (.node l key value (rightRotate (AVLT.node a p pv b hp))
                (max (getHeight l) (getHeight (AVLT.node a p pv b hp)) + 1)) := by
          simp only [avlRebalance, e1, e2, rootKey_node]
          rw [if_neg hcond1, if_neg hcond2, if_neg hcond3, if_pos hcond4]
        -- a is the taller child, hence non-nil
        have hahgt : hgt a = hgt l + 1 := by rw [hRhgt] at hbal; omega
        have hbhgt : hgt b = hgt l := by rw [hRhgt] at hbal; omega
        cases a with
        | nil => simp [hgt] at hahgt
        | node ba q qv bb hb =>
            simp only [HeightsOk] at hHa
            obtain ⟨hastore, hHba, hHbb⟩ := hHa
            simp only [BalancedT] at hBa
            obtain ⟨haa1, haa2, hBba, hBbb⟩ := hBa
            simp only [OrderedB] at hOa
            obtain ⟨hkq, hqp, hOba, hObb⟩ := hOa
            have hkqlt : key < q := by simpa [loLt] using hkq
            have hqplt : q < p := by simpa [hiGt] using hqp
            have eba := getHeight_eq_hgt hHba
            have ebb := getHeight_eq_hgt hHbb
            have hAhgt : hgt (AVLT.node ba q qv bb hb) = max (hgt ba) (hgt bb) + 1 := rfl
            have hmax : max (hgt ba) (hgt bb) = hgt l := by
              rw [hAhgt] at hahgt; omega
            rw [heq, rightRotate_eq, leftRotate_eq]
            simp only [getHeight_node, e1, eba, ebb, eb]
            refine ⟨?_, ?_, ?_, ?_⟩
            · simp only [HeightsOk, hgt]
              exact ⟨by simp, ⟨by simp, hl, hHba⟩, by simp, hHbb, hHb⟩
            · simp only [BalancedT, hgt]
              refine ⟨by omega, by omega, ⟨by omega, by omega, hbl, hBba⟩,
                by omega, by omega, hBbb, hBb⟩
            · simp only [OrderedB]
              refine ⟨loLt_trans hlk hkqlt, hiGt_trans hqplt hphi,
                ⟨hlk, ?_, hol, hOba⟩, ?_, hphi, hObb, hOb⟩
              · simpa [hiGt] using hkqlt
              · simpa [loLt] using hqplt
            · simp only [hgt]
              omega

/-- Key structural lemma: `insertNode` preserves the height bookkeeping,
the AVL balance and the search ordering; the height grows by at most one,
and when a non-empty subtree grows, its root key is unchanged and the new
balance factor leans exactly one step toward the inserted key. -/
theorem avlInsertNode_spec (k v : Int) :
    ∀ (t : AVLT) (lo hi : Option Int),
      HeightsOk t → BalancedT t → OrderedB t lo hi → loLt lo k → hiGt k hi →
      HeightsOk (avlInsertNode t k v)
      ∧ BalancedT (avlInsertNode t k v)
      ∧ OrderedB (avlInsertNode t k v) lo hi
      ∧ hgt t ≤ hgt (avlInsertNode t k v)
      ∧ hgt (avlInsertNode t k v) ≤ hgt t + 1
      ∧ (hgt (avlInsertNode t k v) = hgt t + 1 → t ≠ AVLT.nil →
          rootKey (avlInsertNode t k v) = rootKey t
          ∧ ((k < rootKey t ∧ balInt (avlInsertNode t k v) = 1)
             ∨ (rootKey t < k ∧ balInt (avlInsertNode t k v) = -1))) := by
  intro t
  induction t with
  | nil =>
      intro lo hi _ _ _ hlk hkh
      have heq : avlInsertNode AVLT.nil k v = AVLT.node AVLT.nil k v AVLT.nil 1 := rfl
      rw [heq]
      refine ⟨?_, ?_, ?_, ?_, ?_, ?_⟩
      · simp [HeightsOk, hgt]
      · simp [BalancedT, hgt]
      · simp only [OrderedB]
        exact ⟨hlk, hkh, trivial, trivial⟩
      · simp [hgt]
      · simp [hgt]
      · intro _ hne
        exact absurd rfl hne
  | node l key value r h ihl ihr =>
      intro lo hi hH hB hO hlk hkh
      simp only [HeightsOk] at hH
      obtain ⟨hstore, hHl, hHr⟩ := hH
      simp only [BalancedT] at hB
      obtain ⟨hb1, hb2, hBl, hBr⟩ := hB
      simp only [OrderedB] at hO
      obtain ⟨hOlo, hOhi, hOl, hOr⟩ := hO
      by_cases hc0 : k - key = 0
      · have heq : avlInsertNode (AVLT.node l key value r h) k v
            = AVLT.node l key v r h := by
          simp [avlInsertNode, hc0]
        rw [heq]
        refine ⟨?_, ?_, ?_, ?_, ?_, ?_⟩
        · simp only [HeightsOk]
          exact ⟨hstore, hHl, hHr⟩
        · simp only [BalancedT]
          exact ⟨hb1, hb2, hBl, hBr⟩
        · simp only [OrderedB]
          exact ⟨hOlo, hOhi, hOl, hOr⟩
        · simp only [hgt]
          omega
        · simp only [hgt]
          omega
        · intro hg _
          exfalso
          simp only [hgt] at hg
          omega
      · by_cases hlt : k - key < 0
        · -- insertion goes into the left subtree
          have hklt : k < key := by omega
          have heq : avlInsertNode (AVLT.node l key value r h) k v
              = avlRebalance (avlInsertNode l k v) key value r k := by
            simp [avlInsertNode, hc0, hlt]
          have hkhi2 : hiGt k (some key) := by simpa [hiGt] using hklt
          obtain ⟨iH, iB, iO, ige, ile, igrow⟩ := ihl lo (some key) hHl hBl hOl hlk hkhi2
          rcases (by omega : hgt (avlInsertNode l k v) = hgt l
              ∨ hgt (avlInsertNode l k v) = hgt l + 1) with hsame | hgrow1
          · have hbal1 : (hgt (avlInsertNode l k v) : Int) - hgt r ≤ 1 := by omega
            have hbal2 : (hgt r : Int) - hgt (avlInsertNode l k v) ≤ 1 := by omega
            have hrb := avlRebalance_eq_of_bal (avlInsertNode l k v) key value r k
              iH hHr hbal1 hbal2
            rw [heq, hrb]
            refine ⟨?_, ?_, ?_, ?_, ?_, ?_⟩
            · simp only [HeightsOk]
              exact ⟨by simp, iH, hHr⟩
            · simp only [BalancedT]
              exact ⟨hbal1, hbal2, iB, hBr⟩
            · simp only [OrderedB]
              exact ⟨hOlo, hOhi, iO, hOr⟩
            · simp only [hgt]
              omega
            · simp only [hgt]
              omega
            · intro hg _
              exfalso
              simp only [hgt] at hg
              omega
          · rcases (by omega : (hgt (avlInsertNode l k v) : Int) - hgt r ≤ 1
                ∨ (hgt (avlInsertNode l k v) : Int) - hgt r = 2) with hble | hbal2
            · have hge2 : (hgt r : Int) - hgt (avlInsertNode l k v) ≤ 1 := by omega
              have hrb := avlRebalance_eq_of_bal (avlInsertNode l k v) key value r k
                iH hHr hble hge2
              rw [heq, hrb]
              refine ⟨?_, ?_, ?_, ?_, ?_, ?_⟩
              · simp only [HeightsOk]
                exact ⟨by simp, iH, hHr⟩
              · simp only [BalancedT]
                exact ⟨hble, hge2, iB, hBr⟩
              · simp only [OrderedB]
                exact ⟨hOlo, hOhi, iO, hOr⟩
              · simp only [hgt]
                omega
              · simp only [hgt]
                omega
              · intro hg _
                refine ⟨rfl, Or.inl ⟨hklt, ?_⟩⟩
                simp only [balInt, leftOf, rightOf]
                simp only [hgt] at hg
                omega
            · have hlne : l ≠ AVLT.nil := by
                apply hgt_pos_ne_nil
                omega
              obtain ⟨hrk, hcase0⟩ := igrow hgrow1 hlne
              have hcase2 : (k < rootKey (avlInsertNode l k v)
                    ∧ balInt (avlInsertNode l k v) = 1)
                  ∨ (rootKey (avlInsertNode l k v) < k
                    ∧ balInt (avlInsertNode l k v) = -1) := by
                rw [hrk]
                exact hcase0
              obtain ⟨jH, jB, jO, jhgt⟩ := avlRebalance_leftHeavy (avlInsertNode l k v)
                key value r k lo hi iH hHr iB hBr iO hOr hOlo hOhi hbal2 hcase2
              rw [heq]
              refine ⟨jH, jB, jO, ?_, ?_, ?_⟩
              · rw [jhgt]
                simp only [hgt]
                omega
              · rw [jhgt]
                simp only [hgt]
                omega
              · intro hg _
                exfalso
                rw [jhgt] at hg
                simp only [hgt] at hg
                omega
        · -- insertion goes into the right subtree
          have hkgt : key < k := by omega
          have heq : avlInsertNode (AVLT.node l key value r h) k v
              = avlRebalance l key value (avlInsertNode r k v) k := by
            simp [avlInsertNode, hc0, hlt]
          have hlok : loLt (some key) k := by simpa [loLt] using hkgt
          obtain ⟨iH, iB, iO, ige, ile, igrow⟩ := ihr (some key) hi hHr hBr hOr hlok hkh
          rcases (by omega : hgt (avlInsertNode r k v) = hgt r
              ∨ hgt (avlInsertNode r k v) = hgt r + 1) with hsame | hgrow1
          · have hbal1 : (hgt l : Int) - hgt (avlInsertNode r k v) ≤ 1 := by omega
            have hbal2 : (hgt (avlInsertNode r k v) : Int) - hgt l ≤ 1 := by omega
            have hrb := avlRebalance_eq_of_bal l key value (avlInsertNode r k v) k
              hHl iH hbal1 hbal2
            rw [heq, hrb]
            refine ⟨?_, ?_, ?_, ?_, ?_, ?_⟩
            · simp only [HeightsOk]
              exact ⟨by simp, hHl, iH⟩
            · simp only [BalancedT]
              exact ⟨hbal1, hbal2, hBl, iB⟩
            · simp only [OrderedB]
              exact ⟨hOlo, hOhi, hOl, iO⟩
            · simp only [hgt]
              omega
            · simp only [hgt]
              omega
            · intro hg _
              exfalso
              simp only [hgt] at hg
              omega
          · rcases (by omega : (hgt (avlInsertNode r k v) : Int) - hgt l ≤ 1
                ∨ (hgt (avlInsertNode r k v) : Int) - hgt l = 2) with hble | hbal2
            · have hge2 : (hgt l : Int) - hgt (avlInsertNode r k v) ≤ 1 := by omega
              have hrb := avlRebalance_eq_of_bal l key value (avlInsertNode r k v) k
                hHl iH hge2 hble
              rw [heq, hrb]
              refine ⟨?_, ?_, ?_, ?_, ?_, ?_⟩
              · simp only [HeightsOk]
                exact ⟨by simp, hHl, iH⟩
              · simp only [BalancedT]
                exact ⟨hge2, hble, hBl, iB⟩
              · simp only [OrderedB]
                exact ⟨hOlo, hOhi, hOl, iO⟩
              · simp only [hgt]
                omega
              · simp only [hgt]
                omega
              · intro hg _
                refine ⟨rfl, Or.inr ⟨hkgt, ?_⟩⟩
                simp only [balInt, leftOf, rightOf]
                simp only [hgt] at hg
                omega
            · have hrne : r ≠ AVLT.nil := by
                apply hgt_pos_ne_nil
                omega
              obtain ⟨hrk, hcase0⟩ := igrow hgrow1 hrne
              have hcase2 : (rootKey (avlInsertNode r k v) < k
                    ∧ balInt (avlInsertNode r k v) = -1)
                  ∨ (k < rootKey (avlInsertNode r k v)
                    ∧ balInt (avlInsertNode r k v) = 1) := by
                rw [hrk]
                rcases hcase0 with ⟨h1, h2⟩ | ⟨h1, h2⟩
                · exact Or.inr ⟨h1, h2⟩
                · exact Or.inl ⟨h1, h2⟩
              obtain ⟨jH, jB, jO, jhgt⟩ := avlRebalance_rightHeavy l key value
                (avlInsertNode r k v) k lo hi hHl iH hBl iB hOl iO hOlo hOhi hbal2 hcase2
              rw [heq]
              refine ⟨jH, jB, jO, ?_, ?_, ?_⟩
              · rw [jhgt]
                simp only [hgt]
                omega
              · rw [jhgt]
                simp only [hgt]
                omega
              · intro hg _
                exfalso
                rw [jhgt] at hg
                simp only [hgt] at hg
                omega

/-- The inorder traversal of an ordered tree stays inside the bounds and
is strictly increasing. -/
theorem inorder_sorted_of_ordered :
    ∀ (t : AVLT) (lo hi : Option Int), OrderedB t lo hi →
      (∀ x ∈ inorder t, loLt lo x ∧ hiGt x hi)
      ∧ List.Pairwise (fun a b => a < b) (inorder t) := by
  intro t
  induction t with
  | nil =>
      intro lo hi _
      constructor
      · intro x hx
        simp [inorder] at hx
      · simp [inorder]
  | node l key value r h ihl ihr =>
      intro lo hi hO
      simp only [OrderedB] at hO
      obtain ⟨h1, h2, hOl, hOr⟩ := hO
      obtain ⟨hml, hsl⟩ := ihl lo (some key) hOl
      obtain ⟨hmr, hsr⟩ := ihr (some key) hi hOr
      have hmlk : ∀ x ∈ inorder l, x < key := by
        intro x hx
        have := (hml x hx).2
        simpa [hiGt] using this
      have hmrk : ∀ x ∈ inorder r, key < x := by
        intro x hx
        have := (hmr x hx).1
        simpa [loLt] using this
      constructor
      · intro x hx
        simp only [inorder, List.mem_append, List.mem_cons] at hx
        rcases hx with hx | hx | hx
        · exact ⟨(hml x hx).1, hiGt_trans (hmlk x hx) h2⟩
        · subst hx
          exact ⟨h1, h2⟩
        · exact ⟨loLt_trans h1 (hmrk x hx), (hmr x hx).2⟩
      · simp only [inorder]
        apply List.pairwise_append.mpr
        refine ⟨hsl, List.pairwise_cons.mpr ⟨hmrk, hsr⟩, ?_⟩
        intro x hx y hy
        rcases List.mem_cons.mp hy with rfl | hy2
        · exact hmlk x hx
        · exact lt_trans (hmlk x hx) (hmrk y hy2)

/-- Folding `AVLTree.insert` preserves the three structural invariants. -/
theorem applyAvlInserts_inv (ops : List (Int × Int)) :
    ∀ t : AVLTree, HeightsOk t.root → BalancedT t.root → OrderedB t.root none none →
      HeightsOk (applyAvlInserts ops t).root
      ∧ BalancedT (applyAvlInserts ops t).root
      ∧ OrderedB (applyAvlInserts ops t).root none none := by
  induction ops with
  | nil =>
      intro t h1 h2 h3
      simpa [applyAvlInserts] using ⟨h1, h2, h3⟩
  | cons kv rest ih =>
      intro t h1 h2 h3
      obtain ⟨jH, jB, jO, -⟩ := avlInsertNode_spec kv.1 kv.2 t.root none none
        h1 h2 h3 True.intro True.intro
      have hstep : applyAvlInserts (kv :: rest) t
          = applyAvlInserts rest (avlInsert t kv.1 kv.2) := by
        simp [applyAvlInserts]
      rw [hstep]
      exact ih (avlInsert t kv.1 kv.2) jH jB jO

/-- C5: after every sequence of `AVLTree.insert` calls on a fresh tree
(default comparator `(a, b) => a - b`), `inorder()` lists the stored keys
in strictly ascending order, and at every node the real heights of the two
subtrees differ by at most one. -/
theorem C5_avl_inorder_sorted_and_balanced (ops : List (Int × Int)) :
    List.Pairwise (fun a b => a < b)
      (inorder (applyAvlInserts ops AVLTree.empty).root)
    ∧ BalancedT (applyAvlInserts ops AVLTree.empty).root := by
  obtain ⟨hH, hB, hO⟩ := applyAvlInserts_inv ops AVLTree.empty
    True.intro True.intro True.intro
  exact ⟨(inorder_sorted_of_ordered _ none none hO).2, hB⟩

end TsAlg
